import Mathlib

/-!
A verification development for a small Monkey-style interpreter written in Rust
(lexer, Pratt parser, tree-walking evaluator).  The Rust sources
(`src/token.rs`, `src/lexer.rs`, `src/ast.rs`, `src/parser.rs`,
`src/evaluator.rs`) are embedded shallowly:

* the lexer is a function on `List Char` (the Rust struct holds the input
  array plus a cursor; here the state is the not-yet-consumed suffix);
* the parser's token stream is materialized as a `List Token`; the Rust
  `cur_token`/`peek_token` pair are the first two elements of that list
  (the lexer returns `EOF` tokens forever once exhausted, which the list
  model reproduces with a default `EOF` token past the end);
* the mutually recursive parser functions take an explicit fuel argument,
  decremented at every call; `PRes.fuelOut` is an artifact of the embedding
  and is proved unreachable for fuel linear in the input length;
* Rust `panic!`/`expect` aborts are modelled explicitly (`PRes.panicked`,
  `EvalResult.aborted`); machine integers are modelled as `Int` with the
  64-bit range checks the Rust code performs (`i64::from_str` at parse
  time; the arithmetic overflow/division traps of the default debug
  profile at evaluation time).
-/

namespace Monkey

/-! ## `src/token.rs` -/

inductive TokenKind where
  | Illegal
  | EOF
  | Ident
  | Int
  | Assign
  | Plus
  | Minus
  | Bang
  | Asterisk
  | Slash
  | LT
  | GT
  | EQ
  | NotEQ
  | Comma
  | Semicolon
  | LParen
  | RParen
  | LBrace
  | RBrace
  | Function
  | Let
  | True
  | False
  | If
  | Else
  | Return
deriving DecidableEq

structure Token where
  kind : TokenKind
  literal : String
deriving DecidableEq

/-- The `Default` token of the Rust code (`TokenKind` defaults to `Illegal`,
`String` to the empty string). -/
def defaultToken : Token := ⟨TokenKind.Illegal, ""⟩

/-- The end-of-input token the lexer produces once the cursor is exhausted. -/
def eofToken : Token := ⟨TokenKind.EOF, ""⟩

/-- The derived `Debug` rendering of a `TokenKind` (`{:?}`), used in parser
error messages. -/
def debugStr : TokenKind → String
  | .Illegal => "Illegal"
  | .EOF => "EOF"
  | .Ident => "Ident"
  | .Int => "Int"
  | .Assign => "Assign"
  | .Plus => "Plus"
  | .Minus => "Minus"
  | .Bang => "Bang"
  | .Asterisk => "Asterisk"
  | .Slash => "Slash"
  | .LT => "LT"
  | .GT => "GT"
  | .EQ => "EQ"
  | .NotEQ => "NotEQ"
  | .Comma => "Comma"
  | .Semicolon => "Semicolon"
  | .LParen => "LParen"
  | .RParen => "RParen"
  | .LBrace => "LBrace"
  | .RBrace => "RBrace"
  | .Function => "Function"
  | .Let => "Let"
  | .True => "True"
  | .False => "False"
  | .If => "If"
  | .Else => "Else"
  | .Return => "Return"

/-- The `Display` rendering of a `TokenKind` (`{}`), from `token.rs`. -/
def displayStr : TokenKind → String
  | .Illegal => "Illegal"
  | .EOF => "Eof"
  | .Ident => "Ident"
  | .Int => "Int"
  | .Assign => "="
  | .Plus => "+"
  | .Minus => "-"
  | .Bang => "!"
  | .Asterisk => "*"
  | .Slash => "/"
  | .LT => "<"
  | .GT => ">"
  | .EQ => "=="
  | .NotEQ => "!="
  | .Comma => ","
  | .Semicolon => ";"
  | .LParen => "("
  | .RParen => ")"
  | .LBrace => "\x7b"
  | .RBrace => "\x7d"
  | .Function => "Function"
  | .Let => "Let"
  | .True => "True"
  | .False => "False"
  | .If => "If"
  | .Else => "Else"
  | .Return => "Return"

/-- `lookup_keywords` from `token.rs`. -/
def lookupKeywords (identifier : String) : TokenKind :=
  if identifier = "fn" then .Function
  else if identifier = "let" then .Let
  else if identifier = "true" then .True
  else if identifier = "false" then .False
  else if identifier = "if" then .If
  else if identifier = "else" then .Else
  else if identifier = "return" then .Return
  else .Ident

/-! ## `src/lexer.rs`

The lexer state is the suffix of the input that the cursor has not passed
yet (`input[position..]` in the Rust struct; `ch` is its head, or `'\0'`
once the input is exhausted). -/

/-- `Lexer::is_letter`: ASCII alphabetic (`a`-`z` is 97-122, `A`-`Z` is
65-90) or underscore (95), on code points. -/
def isLetter (c : Char) : Bool :=
  ((97 ≤ c.toNat && c.toNat ≤ 122) || (65 ≤ c.toNat && c.toNat ≤ 90)) || c.toNat == 95

/-- `Lexer::is_digit`: ASCII digit (`0`-`9` is 48-57). -/
def isDigit (c : Char) : Bool :=
  48 ≤ c.toNat && c.toNat ≤ 57

/-- `char::is_ascii_whitespace`: space (32), tab (9), newline (10), form
feed (12), carriage return (13). -/
def isAsciiWhitespace (c : Char) : Bool :=
  c.toNat == 32 || c.toNat == 9 || c.toNat == 10 || c.toNat == 12 || c.toNat == 13

/-- `Lexer::skip_whitespace`. -/
def skipWhitespace : List Char → List Char
  | [] => []
  | c :: rest => if isAsciiWhitespace c then skipWhitespace rest else c :: rest

/-- `Lexer::read_identifier`: consume a maximal run of letter characters. -/
def readIdentifier (cs : List Char) : String × List Char :=
  (String.mk (cs.takeWhile isLetter), cs.dropWhile isLetter)

/-- `Lexer::read_number`: consume a maximal run of digit characters. -/
def readNumber (cs : List Char) : String × List Char :=
  (String.mk (cs.takeWhile isDigit), cs.dropWhile isDigit)

/-- The single-character arms of the `match` in `Lexer::next_token`
(`= ; ( ) , + { } - ! * / < >`), as a lookup table. -/
def singleCharTable : List (Char × TokenKind) :=
  [('=', .Assign), (';', .Semicolon), ('(', .LParen), (')', .RParen), (',', .Comma),
    ('+', .Plus), ('\x7b', .LBrace), ('\x7d', .RBrace), ('-', .Minus), ('!', .Bang),
    ('*', .Asterisk), ('/', .Slash), ('<', .LT), ('>', .GT)]

/-- First-match lookup in an association list. -/
def lookupChar : List (Char × TokenKind) → Char → Option TokenKind
  | [], _ => none
  | (a, k) :: rest, c => if c = a then some k else lookupChar rest c

/-- Which single-character token, if any, a character produces. -/
def singleCharKind (c : Char) : Option TokenKind :=
  lookupChar singleCharTable c

/-- The token-classification `match` of `Lexer::next_token`, applied to
the input after whitespace skipping.  The single-character arms consume
their character (the trailing `read_char` of the Rust code); the
identifier/number arms return early after their maximal munch; an
exhausted input (or the `'\0'` sentinel) yields the `EOF` token. -/
def nextTokenCore : List Char → Token × List Char
  | [] => (eofToken, [])
  | c :: rest =>
    match singleCharKind c with
    | some kind => (⟨kind, String.singleton c⟩, rest)
    | none =>
      if c = '\x00' then (eofToken, rest)
      else if isLetter c then
        let (literal, rest) := readIdentifier (c :: rest)
        (⟨lookupKeywords literal, literal⟩, rest)
      else if isDigit c then
        let (literal, rest) := readNumber (c :: rest)
        (⟨.Int, literal⟩, rest)
      else
        (⟨.Illegal, String.singleton c⟩, rest)

/-- `Lexer::next_token`: skip whitespace, then emit one token and return
the remaining input. -/
def nextToken (cs : List Char) : Token × List Char :=
  nextTokenCore (skipWhitespace cs)

/-- Repeated `next_token` calls until the `EOF` token, collecting the
produced tokens (the terminal `EOF` token itself is not collected; the
parser model regenerates it on demand past the end of the list).  The
fuel is an embedding artifact; `input.length + 1` calls always reach
`EOF` because every non-`EOF` token consumes at least one character. -/
def lexAllFuel : Nat → List Char → List Token
  | 0, _ => []
  | fuel + 1, cs =>
    let (t, rest) := nextToken cs
    if t.kind = .EOF then [] else t :: lexAllFuel fuel rest

/-- The whole token stream of an input. -/
def lexAllC (cs : List Char) : List Token :=
  lexAllFuel (cs.length + 1) cs

/-- Tokenize a source string. -/
def tokenize (s : String) : List Token :=
  lexAllC s.data

/-- Iterate the state transition of `next_token` (used to state that the
`EOF` token is repeatable once the input is exhausted). -/
def nextTokenDrain : Nat → List Char → List Char
  | 0, cs => cs
  | n + 1, cs => nextTokenDrain n (nextToken cs).2

/-! ## `src/ast.rs` -/

structure Identifier where
  token : Token
  value : String
deriving DecidableEq

mutual
inductive ExpressionNode where
  | noneE : ExpressionNode
  | identifier (token : Token) (value : String) : ExpressionNode
  | integer (token : Token) (value : Int) : ExpressionNode
  | prefixExpr (token : Token) (operator : String) (right : ExpressionNode) : ExpressionNode
  | infixExpr (token : Token) (left : ExpressionNode) (operator : String)
      (right : ExpressionNode) : ExpressionNode
  | boolean (token : Token) (value : Bool) : ExpressionNode
  | ifExpr (token : Token) (condition : ExpressionNode) (consequence : BlockStatement)
      (alternative : Option BlockStatement) : ExpressionNode
  | function (token : Token) (parameters : List Identifier) (body : BlockStatement) :
      ExpressionNode
  | call (token : Token) (function : ExpressionNode) (arguments : List ExpressionNode) :
      ExpressionNode

inductive StatementNode where
  | letStmt (token : Token) (name : Identifier) (value : Option ExpressionNode) : StatementNode
  | returnStmt (token : Token) (returnValue : Option ExpressionNode) : StatementNode
  | expressionStmt (token : Token) (expression : Option ExpressionNode) : StatementNode
  | block (b : BlockStatement) : StatementNode

inductive BlockStatement where
  | mk (token : Token) (statements : List StatementNode) : BlockStatement
end

structure Program where
  statements : List StatementNode

/-- `Identifier::print_string`. -/
def Identifier.printString (i : Identifier) : String := i.value

mutual
/-- `print_string` of `ExpressionNode` and the node types behind it. -/
def ExpressionNode.printString : ExpressionNode → String
  | .noneE => ""
  | .identifier _ value => value
  | .integer token _ => token.literal
  | .prefixExpr _ operator right =>
      "(" ++ operator ++ right.printString ++ ")"
  | .infixExpr _ left operator right =>
      "(" ++ left.printString ++ (" " ++ operator ++ " ") ++ right.printString ++ ")"
  | .boolean token _ => token.literal
  | .ifExpr _ condition consequence alternative =>
      "if" ++ condition.printString ++ " " ++ consequence.printString ++
        (match alternative with
         | some alt => "else " ++ alt.printString
         | none => "")
  | .function token parameters body =>
      token.literal ++ "(" ++ printParamList parameters ++ ") " ++ body.printString
  | .call _ f args => f.printString ++ "(" ++ printArgList args ++ ")"

/-- The parameter loop of `FunctionLiteral::print_string` (a separator after
every element but the last). -/
def printParamList : List Identifier → String
  | [] => ""
  | [p] => p.printString
  | p :: rest => p.printString ++ ", " ++ printParamList rest

/-- The argument loop of `CallExpression::print_string`. -/
def printArgList : List ExpressionNode → String
  | [] => ""
  | [a] => a.printString
  | a :: rest => a.printString ++ ", " ++ printArgList rest

/-- `print_string` of `StatementNode`. -/
def StatementNode.printString : StatementNode → String
  | .letStmt token name value =>
      token.literal ++ " " ++ name.printString ++ " = " ++
        (match value with
         | some v => v.printString
         | none => "") ++ ";"
  | .returnStmt token returnValue =>
      token.literal ++ " " ++
        (match returnValue with
         | some v => v.printString
         | none => "") ++ ";"
  | .expressionStmt _ expression =>
      match expression with
      | some e => e.printString
      | none => ""
  | .block b => b.printString

/-- `print_string` of `BlockStatement` (concatenation of its statements). -/
def BlockStatement.printString : BlockStatement → String
  | .mk _ statements => printStmtList statements

/-- The statement loop shared by `Program::print_string` and
`BlockStatement::print_string`. -/
def printStmtList : List StatementNode → String
  | [] => ""
  | s :: rest => s.printString ++ printStmtList rest
end

/-- `Program::print_string`. -/
def Program.printString (p : Program) : String :=
  printStmtList p.statements

/-! ## `src/parser.rs`

The parser state holds the token stream that `cur_token` has not reached
yet: `cur_token` is its head and `peek_token` the element after, both
defaulting to the lexer's repeatable `EOF` token once the stream is
exhausted (`Parser::new` pulls `next_token` twice to fill the pair, which
makes `cur_token`/`peek_token` exactly the first two stream elements). -/

/-- `precedence_map`, with the discriminant values of `PrecedenceLevel`
(`Lowest = 0`, `Equals = 1`, `LessGreater = 2`, `Sum = 3`, `Product = 4`,
`Prefix = 5`, `Call = 6`); the parser compares these numbers (`as u8`). -/
def precedenceMap : TokenKind → Nat
  | .EQ | .NotEQ => 1
  | .LT | .GT => 2
  | .Plus | .Minus => 3
  | .Slash | .Asterisk => 4
  | .LParen => 6
  | _ => 0

/-- The prefix-rule functions registered in `Parser::new`, as a closed
enumeration (the `HashMap` is populated once and never changed). -/
inductive PrefixRule where
  | identRule
  | intRule
  | unaryRule
  | boolRule
  | groupRule
  | ifRule
  | fnRule
deriving DecidableEq

/-- The infix-rule functions registered in `Parser::new`. -/
inductive InfixRule where
  | binaryRule
  | callRule
deriving DecidableEq

/-- `prefix_parse_fns` as populated by `Parser::new`. -/
def prefixParseFns : TokenKind → Option PrefixRule
  | .Ident => some .identRule
  | .Int => some .intRule
  | .Bang => some .unaryRule
  | .Minus => some .unaryRule
  | .True => some .boolRule
  | .False => some .boolRule
  | .LParen => some .groupRule
  | .If => some .ifRule
  | .Function => some .fnRule
  | _ => none

/-- `infix_parse_fns` as populated by `Parser::new` (`parse_infix_expression`
for the eight binary operators, `parse_call_expression` for `(`). -/
def infixParseFns : TokenKind → Option InfixRule
  | .Plus | .Minus | .Slash | .Asterisk | .EQ | .NotEQ | .LT | .GT => some .binaryRule
  | .LParen => some .callRule
  | _ => none

structure PState where
  toks : List Token
  errors : List String
deriving DecidableEq

/-- `self.cur_token`. -/
def curToken (st : PState) : Token :=
  st.toks.headD eofToken

/-- `self.peek_token`. -/
def peekToken (st : PState) : Token :=
  st.toks.tail.headD eofToken

/-- `Parser::next_token` (advance `cur`/`peek` by one stream element). -/
def nextTokenP (st : PState) : PState :=
  { st with toks := st.toks.tail }

/-- `Parser::cur_token_is`. -/
def curTokenIs (k : TokenKind) (st : PState) : Bool :=
  (curToken st).kind == k

/-- `Parser::peek_token_is`. -/
def peekTokenIs (k : TokenKind) (st : PState) : Bool :=
  (peekToken st).kind == k

/-- Append a message to the session error list. -/
def pushError (msg : String) (st : PState) : PState :=
  { st with errors := st.errors ++ [msg] }

/-- `Parser::peek_error`. -/
def peekError (k : TokenKind) (st : PState) : PState :=
  pushError ("expected next token to be " ++ debugStr k ++ ", got " ++
    debugStr (peekToken st).kind ++ " instead") st

/-- `Parser::no_prefix_parse_fn_error` (uses the `Display` rendering). -/
def noPrefixParseFnError (k : TokenKind) (st : PState) : PState :=
  pushError ("no prefix parse function for '" ++ displayStr k ++ "' found") st

/-- `Parser::expect_peek`. -/
def expectPeek (k : TokenKind) (st : PState) : Bool × PState :=
  if peekTokenIs k st then (true, nextTokenP st)
  else (false, peekError k st)

/-- `Parser::peek_precedence`. -/
def peekPrecedence (st : PState) : Nat :=
  precedenceMap (peekToken st).kind

/-- `Parser::cur_precedence`. -/
def curPrecedence (st : PState) : Nat :=
  precedenceMap (curToken st).kind

/-- `str::parse::<i64>`: optional sign, one or more ASCII digits, value in
the 64-bit signed range. -/
def digitsToNat : List Char → Option Nat
  | [] => none
  | cs => if cs.all isDigit then
      some (cs.foldl (fun acc c => 10 * acc + (c.toNat - '0'.toNat)) 0)
    else none

/-- `i64::MIN = -(2^63)`. -/
def i64Min : Int := -9223372036854775808

/-- `i64::MAX = 2^63 - 1`. -/
def i64Max : Int := 9223372036854775807

def parseI64 (s : String) : Option Int :=
  match s.data with
  | '+' :: rest =>
    match digitsToNat rest with
    | some n => if (n : Int) ≤ i64Max then some (n : Int) else none
    | none => none
  | '-' :: rest =>
    match digitsToNat rest with
    | some n => if -(n : Int) ≥ i64Min then some (-(n : Int)) else none
    | none => none
  | cs =>
    match digitsToNat cs with
    | some n => if (n : Int) ≤ i64Max then some (n : Int) else none
    | none => none

/-- Results of the fueled parser functions.  `ok` carries the Rust return
value and the parser state after the call; `panicked` models a Rust
`panic!`/`Option::expect` abort; `fuelOut` is the out-of-fuel marker of
the embedding, proved unreachable for sufficient fuel. -/
inductive PRes (α : Type) where
  | ok (val : α) (st : PState) : PRes α
  | panicked (msg : String) : PRes α
  | fuelOut : PRes α
deriving DecidableEq

/-- `parse_identifier` (registered for `Ident`; consumes nothing). -/
def parseIdentifier (st : PState) : PRes (Option ExpressionNode) :=
  .ok (some (.identifier (curToken st) (curToken st).literal)) st

/-- `parse_integer_literal` (registered for `Int`). -/
def parseIntegerLiteral (st : PState) : PRes (Option ExpressionNode) :=
  match parseI64 (curToken st).literal with
  | some value => .ok (some (.integer (curToken st) value)) st
  | none =>
    .ok none (pushError ("could not parse '" ++ (curToken st).literal ++ "' as integer") st)

/-- `parse_boolean` (registered for `True` and `False`). -/
def parseBoolean (st : PState) : PRes (Option ExpressionNode) :=
  .ok (some (.boolean (curToken st) (curTokenIs .True st))) st

mutual
/-- `Parser::parse_program`. -/
def parseProgram : Nat → PState → PRes Program
  | 0, _ => .fuelOut
  | fuel + 1, st => parseProgramLoop fuel [] st

/-- The `while !cur_token_is(EOF)` loop of `parse_program`. -/
def parseProgramLoop : Nat → List StatementNode → PState → PRes Program
  | 0, _, _ => .fuelOut
  | fuel + 1, acc, st =>
    if curTokenIs .EOF st then .ok ⟨acc⟩ st
    else
      match parseStatement fuel st with
      | .ok (some stmt) st1 => parseProgramLoop fuel (acc ++ [stmt]) (nextTokenP st1)
      | .ok none st1 => parseProgramLoop fuel acc (nextTokenP st1)
      | .panicked m => .panicked m
      | .fuelOut => .fuelOut

/-- `Parser::parse_statement`. -/
def parseStatement : Nat → PState → PRes (Option StatementNode)
  | 0, _ => .fuelOut
  | fuel + 1, st =>
    match (curToken st).kind with
    | .Let => parseLetStatement fuel st
    | .Return => parseReturnStatement fuel st
    | _ => parseExpressionStatement fuel st

/-- `Parser::parse_let_statement`. -/
def parseLetStatement : Nat → PState → PRes (Option StatementNode)
  | 0, _ => .fuelOut
  | fuel + 1, st =>
    let letTok := curToken st
    match expectPeek .Ident st with
    | (false, st1) => .ok none st1
    | (true, st1) =>
      let name : Identifier := ⟨curToken st1, (curToken st1).literal⟩
      match expectPeek .Assign st1 with
      | (false, st2) => .ok none st2
      | (true, st2) =>
        let st3 := nextTokenP st2
        match parseExpression fuel 0 st3 with
        | .ok value st4 =>
          let st5 := if peekTokenIs .Semicolon st4 then nextTokenP st4 else st4
          .ok (some (.letStmt letTok name value)) st5
        | .panicked m => .panicked m
        | .fuelOut => .fuelOut

/-- `Parser::parse_return_statement`. -/
def parseReturnStatement : Nat → PState → PRes (Option StatementNode)
  | 0, _ => .fuelOut
  | fuel + 1, st =>
    let retTok := curToken st
    let st1 := nextTokenP st
    match parseExpression fuel 0 st1 with
    | .ok value st2 =>
      let st3 := if peekTokenIs .Semicolon st2 then nextTokenP st2 else st2
      .ok (some (.returnStmt retTok value)) st3
    | .panicked m => .panicked m
    | .fuelOut => .fuelOut

/-- `Parser::parse_expression_statement`. -/
def parseExpressionStatement : Nat → PState → PRes (Option StatementNode)
  | 0, _ => .fuelOut
  | fuel + 1, st =>
    let tok := curToken st
    match parseExpression fuel 0 st with
    | .ok expression st1 =>
      let st2 := if peekTokenIs .Semicolon st1 then nextTokenP st1 else st1
      .ok (some (.expressionStmt tok expression)) st2
    | .panicked m => .panicked m
    | .fuelOut => .fuelOut

/-- `Parser::parse_expression`: look up a prefix rule for the current token
(else record an error and return no expression), run it, then enter the
precedence-climbing loop. -/
def parseExpression : Nat → Nat → PState → PRes (Option ExpressionNode)
  | 0, _, _ => .fuelOut
  | fuel + 1, precedenceLevel, st =>
    match prefixParseFns (curToken st).kind with
    | none => .ok none (noPrefixParseFnError (curToken st).kind st)
    | some rule =>
      match runPrefixRule fuel rule st with
      | .ok leftExp st1 => parseExpressionLoop fuel precedenceLevel leftExp st1
      | .panicked m => .panicked m
      | .fuelOut => .fuelOut

/-- Invocation of a registered prefix-rule function (the indirect call
through the `prefix_parse_fns` table). -/
def runPrefixRule : Nat → PrefixRule → PState → PRes (Option ExpressionNode)
  | 0, _, _ => .fuelOut
  | fuel + 1, rule, st =>
    match rule with
    | .identRule => parseIdentifier st
    | .intRule => parseIntegerLiteral st
    | .unaryRule => parsePrefixExpression fuel st
    | .boolRule => parseBoolean st
    | .groupRule => parseGroupedExpression fuel st
    | .ifRule => parseIfExpression fuel st
    | .fnRule => parseFunctionLiteral fuel st

/-- The `while` loop of `parse_expression`: while the peek token is not a
semicolon and its precedence strictly exceeds the bound, look up an infix
rule for the peek token; if one exists, invoke it on the current left
expression (panicking, as the Rust `expect` does, if that expression is
absent); if none exists the loop body does nothing and the loop re-checks
its condition with unchanged state. -/
def parseExpressionLoop : Nat → Nat → Option ExpressionNode → PState →
    PRes (Option ExpressionNode)
  | 0, _, _, _ => .fuelOut
  | fuel + 1, precedenceLevel, leftExp, st =>
    if ¬ (peekTokenIs .Semicolon st = true) ∧ precedenceLevel < peekPrecedence st then
      match infixParseFns (peekToken st).kind with
      | some rule =>
        match leftExp with
        | none => .panicked "left_exp is None, but it should be Some(ExpressionNode)"
        | some left =>
          match runInfixRule fuel rule left st with
          | .ok newLeft st1 => parseExpressionLoop fuel precedenceLevel newLeft st1
          | .panicked m => .panicked m
          | .fuelOut => .fuelOut
      | none => parseExpressionLoop fuel precedenceLevel leftExp st
    else .ok leftExp st

/-- Invocation of a registered infix-rule function (the indirect call
through the `infix_parse_fns` table). -/
def runInfixRule : Nat → InfixRule → ExpressionNode → PState → PRes (Option ExpressionNode)
  | 0, _, _, _ => .fuelOut
  | fuel + 1, rule, left, st =>
    match rule with
    | .binaryRule => parseInfixExpression fuel left st
    | .callRule => parseCallExpression fuel left st

/-- `Parser::parse_prefix_expression` (operand parsed at the `Prefix`
level, `5`). -/
def parsePrefixExpression : Nat → PState → PRes (Option ExpressionNode)
  | 0, _ => .fuelOut
  | fuel + 1, st =>
    let tok := curToken st
    let operator := tok.literal
    let st1 := nextTokenP st
    match parseExpression fuel 5 st1 with
    | .ok (some right) st2 => .ok (some (.prefixExpr tok operator right)) st2
    | .ok none st2 => .ok none st2
    | .panicked m => .panicked m
    | .fuelOut => .fuelOut

/-- `Parser::parse_infix_expression`: advance onto the operator, read its
precedence, advance again and parse the right operand at that level. -/
def parseInfixExpression : Nat → ExpressionNode → PState → PRes (Option ExpressionNode)
  | 0, _, _ => .fuelOut
  | fuel + 1, left, st =>
    let st1 := nextTokenP st
    let tok := curToken st1
    let operator := tok.literal
    let precedence := curPrecedence st1
    let st2 := nextTokenP st1
    match parseExpression fuel precedence st2 with
    | .ok (some right) st3 => .ok (some (.infixExpr tok left operator right)) st3
    | .ok none st3 => .ok none st3
    | .panicked m => .panicked m
    | .fuelOut => .fuelOut

/-- `Parser::parse_grouped_expression`. -/
def parseGroupedExpression : Nat → PState → PRes (Option ExpressionNode)
  | 0, _ => .fuelOut
  | fuel + 1, st =>
    let st1 := nextTokenP st
    match parseExpression fuel 0 st1 with
    | .ok exp st2 =>
      match expectPeek .RParen st2 with
      | (false, st3) => .ok none st3
      | (true, st3) => .ok exp st3
    | .panicked m => .panicked m
    | .fuelOut => .fuelOut

/-- `Parser::parse_if_expression` (the condition is unwrapped with
`expect("error parsing condition")`, a panic when it is absent). -/
def parseIfExpression : Nat → PState → PRes (Option ExpressionNode)
  | 0, _ => .fuelOut
  | fuel + 1, st =>
    let tok := curToken st
    match expectPeek .LParen st with
    | (false, st1) => .ok none st1
    | (true, st1) =>
      let st2 := nextTokenP st1
      match parseExpression fuel 0 st2 with
      | .ok condOpt st3 =>
        match condOpt with
        | none => .panicked "error parsing condition"
        | some condition =>
          match expectPeek .RParen st3 with
          | (false, st4) => .ok none st4
          | (true, st4) =>
            match expectPeek .LBrace st4 with
            | (false, st5) => .ok none st5
            | (true, st5) =>
              match parseBlockStatement fuel st5 with
              | .ok consequence st6 =>
                if peekTokenIs .Else st6 then
                  let st7 := nextTokenP st6
                  match expectPeek .LBrace st7 with
                  | (false, st8) => .ok none st8
                  | (true, st8) =>
                    match parseBlockStatement fuel st8 with
                    | .ok alt st9 =>
                      .ok (some (.ifExpr tok condition consequence (some alt))) st9
                    | .panicked m => .panicked m
                    | .fuelOut => .fuelOut
                else .ok (some (.ifExpr tok condition consequence none)) st6
              | .panicked m => .panicked m
              | .fuelOut => .fuelOut
      | .panicked m => .panicked m
      | .fuelOut => .fuelOut

/-- `Parser::parse_block_statement`. -/
def parseBlockStatement : Nat → PState → PRes BlockStatement
  | 0, _ => .fuelOut
  | fuel + 1, st =>
    let tok := curToken st
    let st1 := nextTokenP st
    parseBlockLoop fuel tok [] st1

/-- The `while` loop of `parse_block_statement`. -/
def parseBlockLoop : Nat → Token → List StatementNode → PState → PRes BlockStatement
  | 0, _, _, _ => .fuelOut
  | fuel + 1, tok, acc, st =>
    if ¬ (curTokenIs .RBrace st = true) ∧ ¬ (curTokenIs .EOF st = true) then
      match parseStatement fuel st with
      | .ok (some stmt) st1 => parseBlockLoop fuel tok (acc ++ [stmt]) (nextTokenP st1)
      | .ok none st1 => parseBlockLoop fuel tok acc (nextTokenP st1)
      | .panicked m => .panicked m
      | .fuelOut => .fuelOut
    else .ok (.mk tok acc) st

/-- `Parser::parse_function_literal` (parameters are unwrapped with
`expect("error parsing parameters")`). -/
def parseFunctionLiteral : Nat → PState → PRes (Option ExpressionNode)
  | 0, _ => .fuelOut
  | fuel + 1, st =>
    let tok := curToken st
    match expectPeek .LParen st with
    | (false, st1) => .ok none st1
    | (true, st1) =>
      match parseFunctionParameters fuel st1 with
      | .ok paramsOpt st2 =>
        match paramsOpt with
        | none => .panicked "error parsing parameters"
        | some parameters =>
          match expectPeek .LBrace st2 with
          | (false, st3) => .ok none st3
          | (true, st3) =>
            match parseBlockStatement fuel st3 with
            | .ok body st4 => .ok (some (.function tok parameters body)) st4
            | .panicked m => .panicked m
            | .fuelOut => .fuelOut
      | .panicked m => .panicked m
      | .fuelOut => .fuelOut

/-- `Parser::parse_function_parameters`. -/
def parseFunctionParameters : Nat → PState → PRes (Option (List Identifier))
  | 0, _ => .fuelOut
  | fuel + 1, st =>
    if peekTokenIs .RParen st then .ok (some []) (nextTokenP st)
    else
      let st1 := nextTokenP st
      let ident : Identifier := ⟨curToken st1, (curToken st1).literal⟩
      parseFunctionParametersLoop fuel [ident] st1

/-- The `while peek_token_is(Comma)` loop of `parse_function_parameters`,
followed by the closing-parenthesis check. -/
def parseFunctionParametersLoop : Nat → List Identifier → PState →
    PRes (Option (List Identifier))
  | 0, _, _ => .fuelOut
  | fuel + 1, acc, st =>
    if peekTokenIs .Comma st then
      let st1 := nextTokenP (nextTokenP st)
      let ident : Identifier := ⟨curToken st1, (curToken st1).literal⟩
      parseFunctionParametersLoop fuel (acc ++ [ident]) st1
    else
      match expectPeek .RParen st with
      | (false, st1) => .ok none st1
      | (true, st1) => .ok (some acc) st1

/-- `Parser::parse_call_expression` (arguments are unwrapped with
`expect("error parsing arguments")`). -/
def parseCallExpression : Nat → ExpressionNode → PState → PRes (Option ExpressionNode)
  | 0, _, _ => .fuelOut
  | fuel + 1, function, st =>
    let st1 := nextTokenP st
    let tok := curToken st1
    match parseCallArguments fuel st1 with
    | .ok argsOpt st2 =>
      match argsOpt with
      | none => .panicked "error parsing arguments"
      | some args => .ok (some (.call tok function args)) st2
    | .panicked m => .panicked m
    | .fuelOut => .fuelOut

/-- `Parser::parse_call_arguments` (each argument is unwrapped with
`expect("error parsing arguments")`). -/
def parseCallArguments : Nat → PState → PRes (Option (List ExpressionNode))
  | 0, _ => .fuelOut
  | fuel + 1, st =>
    if peekTokenIs .RParen st then .ok (some []) (nextTokenP st)
    else
      let st1 := nextTokenP st
      match parseExpression fuel 0 st1 with
      | .ok firstOpt st2 =>
        match firstOpt with
        | none => .panicked "error parsing arguments"
        | some first => parseCallArgumentsLoop fuel [first] st2
      | .panicked m => .panicked m
      | .fuelOut => .fuelOut

/-- The `while peek_token_is(Comma)` loop of `parse_call_arguments`,
followed by the closing-parenthesis check. -/
def parseCallArgumentsLoop : Nat → List ExpressionNode → PState →
    PRes (Option (List ExpressionNode))
  | 0, _, _ => .fuelOut
  | fuel + 1, acc, st =>
    if peekTokenIs .Comma st then
      let st1 := nextTokenP (nextTokenP st)
      match parseExpression fuel 0 st1 with
      | .ok argOpt st2 =>
        match argOpt with
        | none => .panicked "error parsing arguments"
        | some arg => parseCallArgumentsLoop fuel (acc ++ [arg]) st2
      | .panicked m => .panicked m
      | .fuelOut => .fuelOut
    else
      match expectPeek .RParen st with
      | (false, st1) => .ok none st1
      | (true, st1) => .ok (some acc) st1
end

/-- Fuel that provably suffices for the whole parse (`parseFuelSufficient`
below). -/
def parseFuel (toks : List Token) : Nat :=
  10 * toks.length + 20

/-- `Lexer::new` plus `Parser::new` plus `parse_program` on a source
string. -/
def parseSource (s : String) : PRes Program :=
  let toks := tokenize s
  parseProgram (parseFuel toks) ⟨toks, []⟩

/-- Convenience projection of a parse: the accumulated error list and the
canonical print of the program, or `none` if the parse panicked (the
fuel marker never occurs at `parseFuel`). -/
def parseSourceResult (s : String) : Option (List String × String) :=
  match parseSource s with
  | .ok prog st => some (st.errors, prog.printString)
  | _ => none

/-! ## `src/object.rs` and `src/evaluator.rs`

Runtime values are 64-bit signed integers, booleans, a return-value
wrapper and null.  The evaluator's `i64` arithmetic is modelled on `Int`
with the range checks Rust performs: division by zero and division
overflow always panic in Rust, and the add/sub/mul/neg overflow checks of
the default (debug) cargo profile panic as well; `EvalResult.aborted`
models such a panic (in a release build the add/sub/mul/neg cases wrap
instead of aborting, so those claims fail there too, just differently). -/

inductive Object where
  | integer (value : Int) : Object
  | boolean (value : Bool) : Object
  | returnValue (value : Object) : Object
  | null : Object
deriving DecidableEq

/-- Does an `Int` fit in `i64`? -/
def fitsI64 (n : Int) : Bool :=
  i64Min ≤ n && n ≤ i64Max

/-- Result of an evaluation step: a value, or a Rust panic (process
abort). -/
inductive EvalResult where
  | ok (val : Object) : EvalResult
  | aborted (msg : String) : EvalResult
deriving DecidableEq

/-- `Evaluator::native_bool_to_boolean_object`. -/
def nativeBoolToBooleanObject (input : Bool) : Object :=
  if input then .boolean true else .boolean false

/-- `Evaluator::eval_bang_operator_expression`. -/
def evalBangOperatorExpression (right : Object) : Object :=
  match right with
  | .boolean true => .boolean false
  | .boolean false => .boolean true
  | .null => .boolean true
  | _ => .boolean false

/-- `Evaluator::eval_minus_prefix_operator_expression` (`-value` on `i64`;
negating `i64::MIN` overflows and aborts in the default build). -/
def evalMinusPrefixOperatorExpression (right : Object) : EvalResult :=
  match right with
  | .integer value =>
    if fitsI64 (-value) then .ok (.integer (-value))
    else .aborted "attempt to negate with overflow"
  | _ => .ok .null

/-- `Evaluator::eval_prefix_expression`. -/
def evalPrefixExpression (operator : String) (right : Object) : EvalResult :=
  if operator = "!" then .ok (evalBangOperatorExpression right)
  else if operator = "-" then evalMinusPrefixOperatorExpression right
  else .ok .null

/-- `Evaluator::eval_integer_infix_expression` (`+ - * /` on `i64`, with
`/` the truncating division; division by zero and `i64::MIN / -1` always
abort in Rust, the other overflows abort in the default build). -/
def evalIntegerInfixExpression (operator : String) (left right : Int) : EvalResult :=
  if operator = "+" then
    if fitsI64 (left + right) then .ok (.integer (left + right))
    else .aborted "attempt to add with overflow"
  else if operator = "-" then
    if fitsI64 (left - right) then .ok (.integer (left - right))
    else .aborted "attempt to subtract with overflow"
  else if operator = "*" then
    if fitsI64 (left * right) then .ok (.integer (left * right))
    else .aborted "attempt to multiply with overflow"
  else if operator = "/" then
    if right = 0 then .aborted "attempt to divide by zero"
    else if fitsI64 (Int.tdiv left right) then .ok (.integer (Int.tdiv left right))
    else .aborted "attempt to divide with overflow"
  else .ok .null

/-- `Evaluator::eval_infix_expression`. -/
def evalInfixExpression (operator : String) (left right : Object) : EvalResult :=
  match left, right with
  | .integer leftVal, .integer rightVal => evalIntegerInfixExpression operator leftVal rightVal
  | _, _ => .ok .null

/-- `Evaluator::eval_expression` on a present expression (the Rust function
takes an `Option` and recurses with `Some(..)`; the `None` case is split
into `evalExpression` below).  Integer and boolean literals yield their
value; prefix and infix expressions evaluate their operands and dispatch;
every other variant falls through to `NULL`. -/
def evalExpr : ExpressionNode → EvalResult
  | .integer _ value => .ok (.integer value)
  | .boolean _ value => .ok (nativeBoolToBooleanObject value)
  | .prefixExpr _ operator right =>
    match evalExpr right with
    | .ok rightVal => evalPrefixExpression operator rightVal
    | .aborted m => .aborted m
  | .infixExpr _ left operator right =>
    match evalExpr left with
    | .ok leftVal =>
      match evalExpr right with
      | .ok rightVal => evalInfixExpression operator leftVal rightVal
      | .aborted m => .aborted m
    | .aborted m => .aborted m
  | _ => .ok .null

/-- `Evaluator::eval_expression`. -/
def evalExpression : Option ExpressionNode → EvalResult
  | some e => evalExpr e
  | none => .ok .null

/-- `Evaluator::eval_statement` (only expression statements are evaluated;
everything else reduces to `Null`). -/
def evalStatement : StatementNode → EvalResult
  | .expressionStmt _ expression => evalExpression expression
  | _ => .ok .null

/-- The statement fold of `Evaluator::eval_program` (`result` starts as
`Null` and is replaced by each statement's value; a panic unwinds). -/
def evalStatements : List StatementNode → Object → EvalResult
  | [], result => .ok result
  | stmt :: rest, _ =>
    match evalStatement stmt with
    | .ok value => evalStatements rest value
    | .aborted m => .aborted m

/-- `Evaluator::eval_program`. -/
def evalProgram (program : Program) : EvalResult :=
  evalStatements program.statements .null

/-- The whole pipeline on a source string: tokenize, parse, evaluate.
`none` means the parser itself panicked (before evaluation started). -/
def runSource (s : String) : Option (EvalResult × List String) :=
  match parseSource s with
  | .ok prog st => some (evalProgram prog, st.errors)
  | _ => none

/-! ## Definitions used only to state properties -/

/-- Is this statement a `Let` statement? -/
def StatementNode.isLet : StatementNode → Bool
  | .letStmt _ _ _ => true
  | _ => false

/-- Is this object an `Integer`? -/
def Object.isInt : Object → Bool
  | .integer _ => true
  | _ => false

/-- The operator token printed by a prefix expression of the plain
fragment (`!` or `-`). -/
def unaryOpToken (op : String) : Token :=
  if op = "!" then ⟨.Bang, "!"⟩ else ⟨.Minus, "-"⟩

/-- The operator token printed by an infix expression of the plain
fragment. -/
def binaryOpToken (op : String) : Token :=
  if op = "+" then ⟨.Plus, "+"⟩
  else if op = "-" then ⟨.Minus, "-"⟩
  else if op = "*" then ⟨.Asterisk, "*"⟩
  else if op = "/" then ⟨.Slash, "/"⟩
  else if op = "<" then ⟨.LT, "<"⟩
  else ⟨.GT, ">"⟩

/-- The plain expression fragment: identifier, integer, boolean, prefix
and infix nodes whose string fields are the ones the lexer and parser can
actually produce (identifier values are nonempty non-keyword letter runs,
integer literals are digit runs that re-parse within `i64`, boolean
literals are `true`/`false`, operators are drawn from the registered
operator tokens). -/
def plainExpr : ExpressionNode → Bool
  | .identifier _ value =>
      (!(value == "")) && value.data.all isLetter && (lookupKeywords value == .Ident)
  | .integer tok _ =>
      (!(tok.literal == "")) && tok.literal.data.all isDigit && (parseI64 tok.literal).isSome
  | .boolean tok _ => (tok.literal == "true") || (tok.literal == "false")
  | .prefixExpr _ operator right =>
      ((operator == "!") || (operator == "-")) && plainExpr right
  | .infixExpr _ left operator right =>
      ((operator == "+") || (operator == "-") || (operator == "*") || (operator == "/") ||
        (operator == "<") || (operator == ">")) && plainExpr left && plainExpr right
  | _ => false

/-- The token stream of the canonical print of a plain expression. -/
def exprTokens : ExpressionNode → List Token
  | .identifier _ value => [⟨.Ident, value⟩]
  | .integer tok _ => [⟨.Int, tok.literal⟩]
  | .boolean tok _ => [⟨if tok.literal == "true" then .True else .False, tok.literal⟩]
  | .prefixExpr _ operator right =>
      ⟨.LParen, "("⟩ :: unaryOpToken operator :: (exprTokens right ++ [⟨.RParen, ")"⟩])
  | .infixExpr _ left operator right =>
      ⟨.LParen, "("⟩ ::
        (exprTokens left ++ binaryOpToken operator :: (exprTokens right ++ [⟨.RParen, ")"⟩]))
  | _ => []

/-- The last token of the canonical print of a plain expression (after
parsing an expression, `cur_token` rests on this token). -/
def lastTok : ExpressionNode → Token
  | .identifier _ value => ⟨.Ident, value⟩
  | .integer tok _ => ⟨.Int, tok.literal⟩
  | .boolean tok _ => ⟨if tok.literal == "true" then .True else .False, tok.literal⟩
  | .prefixExpr _ _ _ => ⟨.RParen, ")"⟩
  | .infixExpr _ _ _ _ => ⟨.RParen, ")"⟩
  | _ => eofToken

/-- The prefix rule that fires on the first printed token of a plain
expression. -/
def ruleOf : ExpressionNode → PrefixRule
  | .identifier _ _ => .identRule
  | .integer _ _ => .intRule
  | .boolean _ _ => .boolRule
  | _ => .groupRule

/-- A character list that may legally follow a maximal identifier or
number munch without merging into it. -/
def safeFollow : List Char → Bool
  | [] => true
  | c :: _ => !(isLetter c) && !(isDigit c)

/-- Fuel sufficient for the parser to consume the canonical print of a
plain expression. -/
def exprFuel : ExpressionNode → Nat
  | .prefixExpr _ _ right => exprFuel right + 8
  | .infixExpr _ left _ right => max (exprFuel left) (exprFuel right) + 8
  | _ => 1

/-- The panic message of a parse, if the parser panicked. -/
def parsePanicMsg (s : String) : Option String :=
  match parseSource s with
  | .panicked m => some m
  | _ => none

/-- Projection of a parse used for the error-accumulation property: the
error list, whether any `Let` statement was produced, the number of
statements, and whether the token stream was consumed to its end. -/
def parseLetProbe (s : String) : Option (List String × Bool × Nat × Bool) :=
  match parseSource s with
  | .ok prog st => some (st.errors, prog.statements.any (fun x => x.isLet),
      prog.statements.length, st.toks.isEmpty)
  | _ => none

/-! ## Lexer lemmas -/

theorem lookupChar_mem :
    ∀ (l : List (Char × TokenKind)) (c : Char) (k : TokenKind),
      lookupChar l c = some k → (c, k) ∈ l := by
  intro l
  induction l with
  | nil => intro c k h; exact absurd h (by simp [lookupChar])
  | cons p rest ih =>
    intro c k h
    obtain ⟨a, k'⟩ := p
    unfold lookupChar at h
    split_ifs at h with hc
    · simp only [Option.some.injEq] at h
      subst h; subst hc
      exact List.mem_cons_self _ _
    · exact List.mem_cons_of_mem _ (ih c k h)

theorem singleCharKind_facts (c : Char) (k : TokenKind) (h : singleCharKind c = some k) :
    isAsciiWhitespace c = false ∧ isLetter c = false ∧ isDigit c = false ∧
      k ≠ .EOF ∧ k ≠ .EQ ∧ k ≠ .NotEQ := by
  have hm := lookupChar_mem _ _ _ h
  simp only [singleCharTable, List.mem_cons, List.not_mem_nil, or_false,
    Prod.mk.injEq] at hm
  rcases hm with hck | hck | hck | hck | hck | hck | hck | hck | hck | hck | hck |
    hck | hck | hck <;> obtain ⟨rfl, rfl⟩ := hck <;> decide

theorem nextToken_single (c : Char) (k : TokenKind) (rest : List Char)
    (h : singleCharKind c = some k) :
    nextToken (c :: rest) = (⟨k, String.singleton c⟩, rest) := by
  obtain ⟨hws, -, -, -, -, -⟩ := singleCharKind_facts c k h
  simp [nextToken, skipWhitespace, hws, nextTokenCore, h]

theorem lookupKeywords_not_eq (s : String) :
    lookupKeywords s ≠ .EQ ∧ lookupKeywords s ≠ .NotEQ := by
  unfold lookupKeywords
  split_ifs <;> exact ⟨by decide, by decide⟩

theorem nextTokenCore_not_eq (l : List Char) :
    (nextTokenCore l).1.kind ≠ .EQ ∧ (nextTokenCore l).1.kind ≠ .NotEQ := by
  cases l with
  | nil => exact ⟨by decide, by decide⟩
  | cons c rest =>
    cases h : singleCharKind c with
    | some k =>
      obtain ⟨-, -, -, -, h1, h2⟩ := singleCharKind_facts c k h
      simp only [nextTokenCore, h]
      exact ⟨h1, h2⟩
    | none =>
      simp only [nextTokenCore, h]
      split_ifs with h1 h2 h3
      · exact ⟨by simp [eofToken], by simp [eofToken]⟩
      · exact lookupKeywords_not_eq _
      · exact ⟨by simp, by simp⟩
      · exact ⟨by simp, by simp⟩

theorem nextToken_not_eq (cs : List Char) :
    (nextToken cs).1.kind ≠ .EQ ∧ (nextToken cs).1.kind ≠ .NotEQ :=
  nextTokenCore_not_eq (skipWhitespace cs)

theorem lexAllFuel_not_eq (fuel : Nat) :
    ∀ cs : List Char,
      ((lexAllFuel fuel cs).all fun t => !(t.kind == .EQ) && !(t.kind == .NotEQ)) = true := by
  induction fuel with
  | zero => intro cs; rfl
  | succ f ih =>
    intro cs
    obtain ⟨h1, h2⟩ := nextToken_not_eq cs
    unfold lexAllFuel
    rcases hnt : nextToken cs with ⟨t, rest⟩
    rw [hnt] at h1 h2
    simp only at h1 h2 ⊢
    split
    · rfl
    · simp only [List.all_cons, Bool.and_eq_true, Bool.not_eq_true', beq_eq_false_iff_ne,
        ne_eq]
      exact ⟨⟨h1, h2⟩, ih _⟩

theorem lexAllC_singles :
    ∀ cs : List Char, (cs.all fun c => (singleCharKind c).isSome) = true →
      lexAllC cs = cs.map (fun c => ⟨(singleCharKind c).getD .Illegal, String.singleton c⟩) := by
  intro cs
  induction cs with
  | nil => intro _; rfl
  | cons c rest ih =>
    intro h
    simp only [List.all_cons, Bool.and_eq_true] at h
    obtain ⟨k, hk⟩ := Option.isSome_iff_exists.mp h.1
    obtain ⟨-, -, -, hne, -, -⟩ := singleCharKind_facts c k hk
    have hstep := nextToken_single c k rest hk
    have hicc : lexAllC (c :: rest) = ⟨k, String.singleton c⟩ :: lexAllC rest := by
      show lexAllFuel ((c :: rest).length + 1) (c :: rest) = _
      have hlen : (c :: rest).length + 1 = rest.length + 1 + 1 := by simp
      rw [hlen, lexAllFuel, hstep]
      simp only
      simp [hne, lexAllC]
    rw [hicc, ih h.2]
    simp [hk]

theorem nextTokenDrain_nil (n : Nat) :
    nextTokenDrain n [] = [] ∧ nextToken (nextTokenDrain n []) = (eofToken, []) := by
  induction n with
  | zero => exact ⟨rfl, rfl⟩
  | succ m ih =>
    refine ⟨?_, ?_⟩
    · show nextTokenDrain m (nextToken []).2 = []
      exact ih.1
    · show nextToken (nextTokenDrain m (nextToken []).2) = (eofToken, [])
      exact ih.2

/-! ## Claim theorems (lexer) -/

/-- C8: tokenizing a string consisting only of the single characters
`= + - ! * / < > ( ) { } , ;` yields exactly one token per character with
the matching kind and that character as its literal, in input order; once
the input is exhausted, every subsequent `next_token()` call returns a
token of kind `EOF` with empty literal, repeatably on arbitrarily many
further calls. -/
theorem c8_single_char_tokens :
    (∀ cs : List Char, (cs.all fun c => (singleCharKind c).isSome) = true →
      lexAllC cs = cs.map (fun c => ⟨(singleCharKind c).getD .Illegal, String.singleton c⟩)) ∧
    (∀ n : Nat, nextTokenDrain n [] = [] ∧ nextToken (nextTokenDrain n []) = (eofToken, [])) :=
  ⟨lexAllC_singles, nextTokenDrain_nil⟩

/-- Witness for C8 at the concrete input `"=+-!*/<>(){},;"` (braces written
escaped) and three repeated post-exhaustion calls. -/
theorem c8_single_char_tokens_witness :
    lexAllC ("=+-!*/<>()\x7b\x7d,;".data) =
      [⟨.Assign, "="⟩, ⟨.Plus, "+"⟩, ⟨.Minus, "-"⟩, ⟨.Bang, "!"⟩, ⟨.Asterisk, "*"⟩,
        ⟨.Slash, "/"⟩, ⟨.LT, "<"⟩, ⟨.GT, ">"⟩, ⟨.LParen, "("⟩, ⟨.RParen, ")"⟩,
        ⟨.LBrace, "\x7b"⟩, ⟨.RBrace, "\x7d"⟩, ⟨.Comma, ","⟩, ⟨.Semicolon, ";"⟩] ∧
    nextTokenDrain 3 [] = [] ∧ nextToken (nextTokenDrain 3 []) = (eofToken, []) :=
  ⟨(c8_single_char_tokens.1 ("=+-!*/<>()\x7b\x7d,;".data) (by decide)).trans (by decide),
    c8_single_char_tokens.2 3⟩

/-- C9: the token sequence of any input never contains a token of kind
`EQ` or `NotEQ` (the lexer maps `=` and `!` to `Assign` and `Bang`
without looking ahead, so `"=="` lexes as two `Assign` tokens), while the
parser nevertheless registers infix rules for `EQ`/`NotEQ` at the
`Equals` precedence level — rules that are therefore unreachable from any
source text. -/
theorem c9_no_eq_noteq_tokens :
    (∀ (fuel : Nat) (cs : List Char),
      ((lexAllFuel fuel cs).all fun t => !(t.kind == .EQ) && !(t.kind == .NotEQ)) = true) ∧
    (∀ s : String,
      ((tokenize s).all fun t => !(t.kind == .EQ) && !(t.kind == .NotEQ)) = true) ∧
    tokenize "==" = [⟨.Assign, "="⟩, ⟨.Assign, "="⟩] ∧
    infixParseFns .EQ = some .binaryRule ∧ infixParseFns .NotEQ = some .binaryRule ∧
    precedenceMap .EQ = 1 ∧ precedenceMap .NotEQ = 1 :=
  ⟨lexAllFuel_not_eq, fun _ => lexAllFuel_not_eq _ _, by decide, rfl, rfl, rfl, rfl⟩

/-! ## Claim theorems (evaluator, concrete pipeline) -/

/-- C10: evaluating a `Program` whose statement list is empty returns
`Null` (the fold of `eval_program` starts from `Null`). -/
theorem c10_empty_program_evaluates_null : evalProgram ⟨[]⟩ = .ok .null := rfl

/-- C2: parsing each of the five precedence-law source strings yields an
empty error list and a `Program` whose canonical print is exactly the
expected text. -/
theorem c2_precedence_law_prints :
    parseSourceResult "-a * b" = some ([], "((-a) * b)") ∧
    parseSourceResult "a + b + c" = some ([], "((a + b) + c)") ∧
    parseSourceResult "a + b * c + d / e - f" = some ([], "(((a + (b * c)) + (d / e)) - f)") ∧
    parseSourceResult "3 + 4; -5 * 5" = some ([], "(3 + 4)((-5) * 5)") ∧
    parseSourceResult "a + add(b * c) + d" = some ([], "((a + add((b * c))) + d)") :=
  ⟨rfl, rfl, rfl, rfl, rfl⟩

/-- C7: parsing `"let x 5;"` appends exactly one error message (naming the
expected `Assign` and actual `Int` token kinds), produces a program with
no `Let` statement (a single expression statement), and consumes the
token stream to its end without aborting. -/
theorem c7_let_missing_assign_error_accumulation :
    parseLetProbe "let x 5;" =
      some (["expected next token to be Assign, got Int instead"], false, 1, true) := by
  decide

/-- C1 (evidence that the claim is violated by the code): evaluating
`"5 / 0"` reaches the unchecked `left / right` in
`eval_integer_infix_expression` and aborts with a division-by-zero panic,
and parsing `"foo(let)"` aborts inside `parse_call_expression` through
`expect("error parsing arguments")` — the pipeline does not always run to
completion. -/
theorem c1_pipeline_can_abort :
    runSource "5 / 0" = some (.aborted "attempt to divide by zero", []) ∧
    parsePanicMsg "foo(let)" = some "error parsing arguments" :=
  ⟨rfl, rfl⟩

/-- C4 counterexample: on the Integer pair `(5, 0)` the operator `"/"`
does not yield any Integer (in particular not the truncating quotient);
it aborts with a division-by-zero panic. -/
theorem c4_counterexample_div_by_zero :
    evalInfixExpression "/" (.integer 5) (.integer 0) = .aborted "attempt to divide by zero" ∧
    evalInfixExpression "/" (.integer 5) (.integer 0) ≠ .ok (.integer (Int.tdiv 5 0)) := by
  exact ⟨rfl, by decide⟩

/-- C4 (amended): infix evaluation dispatches on the pair of evaluated
operand values; when both are Integers, `+`, `-`, `*` yield the Integer
result when it fits in `i64` and `/` yields the truncating quotient when
the divisor is nonzero (and the quotient fits); dividing by zero aborts
the process instead of producing a value; any other operator on two
Integers (including `<` and `>`) yields Null, and every other pairing of
operand types yields Null. -/
theorem c4_amended_integer_infix_dispatch :
    (∀ a b : Int, fitsI64 (a + b) = true →
      evalInfixExpression "+" (.integer a) (.integer b) = .ok (.integer (a + b))) ∧
    (∀ a b : Int, fitsI64 (a - b) = true →
      evalInfixExpression "-" (.integer a) (.integer b) = .ok (.integer (a - b))) ∧
    (∀ a b : Int, fitsI64 (a * b) = true →
      evalInfixExpression "*" (.integer a) (.integer b) = .ok (.integer (a * b))) ∧
    (∀ a b : Int, b ≠ 0 → fitsI64 (Int.tdiv a b) = true →
      evalInfixExpression "/" (.integer a) (.integer b) = .ok (.integer (Int.tdiv a b))) ∧
    (∀ a : Int,
      evalInfixExpression "/" (.integer a) (.integer 0) =
        .aborted "attempt to divide by zero") ∧
    (∀ (operator : String) (a b : Int), operator ∉ (["+", "-", "*", "/"] : List String) →
      evalInfixExpression operator (.integer a) (.integer b) = .ok .null) ∧
    (∀ (operator : String) (l r : Object), l.isInt = false ∨ r.isInt = false →
      evalInfixExpression operator l r = .ok .null) := by
  refine ⟨?_, ?_, ?_, ?_, ?_, ?_, ?_⟩
  · intro a b h
    simp [evalInfixExpression, evalIntegerInfixExpression, h]
  · intro a b h
    simp [evalInfixExpression, evalIntegerInfixExpression, h]
  · intro a b h
    simp [evalInfixExpression, evalIntegerInfixExpression, h]
  · intro a b hb hf
    simp [evalInfixExpression, evalIntegerInfixExpression, hb, hf]
  · intro a
    simp [evalInfixExpression, evalIntegerInfixExpression]
  · intro operator a b h
    simp only [List.mem_cons, List.mem_singleton, not_or] at h
    obtain ⟨h1, h2, h3, h4, -⟩ := h
    simp [evalInfixExpression, evalIntegerInfixExpression, h1, h2, h3, h4]
  · rintro operator l r (h | h) <;> cases l <;> cases r <;>
      simp_all [evalInfixExpression, Object.isInt]

/-- Witness for C4 (amended) at concrete operand values. -/
theorem c4_amended_integer_infix_dispatch_witness :
    evalInfixExpression "+" (.integer 2) (.integer 3) = .ok (.integer (2 + 3)) ∧
    evalInfixExpression "-" (.integer 2) (.integer 3) = .ok (.integer (2 - 3)) ∧
    evalInfixExpression "*" (.integer 2) (.integer 3) = .ok (.integer (2 * 3)) ∧
    evalInfixExpression "/" (.integer 7) (.integer (-2)) = .ok (.integer (Int.tdiv 7 (-2))) ∧
    evalInfixExpression "/" (.integer 7) (.integer 0) = .aborted "attempt to divide by zero" ∧
    evalInfixExpression "<" (.integer 1) (.integer 2) = .ok .null ∧
    evalInfixExpression "+" (.boolean true) (.integer 1) = .ok .null :=
  ⟨c4_amended_integer_infix_dispatch.1 2 3 (by decide),
    c4_amended_integer_infix_dispatch.2.1 2 3 (by decide),
    c4_amended_integer_infix_dispatch.2.2.1 2 3 (by decide),
    c4_amended_integer_infix_dispatch.2.2.2.1 7 (-2) (by decide) (by decide),
    c4_amended_integer_infix_dispatch.2.2.2.2.1 7,
    c4_amended_integer_infix_dispatch.2.2.2.2.2.1 "<" 1 2 (by decide),
    c4_amended_integer_infix_dispatch.2.2.2.2.2.2 "+" (.boolean true) (.integer 1)
      (Or.inl rfl)⟩

/-- C5 counterexample: at `n = i64::MIN` the prefix operator `-` does not
yield `Integer(-n)`; negating `i64::MIN` overflows and aborts (also
reachable from the source text `"-(-9223372036854775807 - 1)"`). -/
theorem c5_counterexample_negate_min :
    evalPrefixExpression "-" (.integer i64Min) = .aborted "attempt to negate with overflow" ∧
    evalPrefixExpression "-" (.integer i64Min) ≠ .ok (.integer (-i64Min)) ∧
    runSource "-(-9223372036854775807 - 1)" =
      some (.aborted "attempt to negate with overflow", []) := by
  exact ⟨by decide, by decide, rfl⟩

/-- C5 (amended): `!` sends `Boolean(true)` to `false`, `Boolean(false)`
to `true`, `Null` to `true` and every other value to `false`; `-` sends
an Integer operand `n` to `Integer(-n)` for every 64-bit signed
`n ≠ i64::MIN` (negating `i64::MIN` overflows and aborts) and every
non-Integer operand to `Null` without aborting; concretely `"-5"`
evaluates to `Integer(-5)`, `"-true"` to `Null`, `"!true"` to
`Boolean(false)` and `"!!5"` to `Boolean(true)`. -/
theorem c5_amended_prefix_eval :
    evalPrefixExpression "!" (.boolean true) = .ok (.boolean false) ∧
    evalPrefixExpression "!" (.boolean false) = .ok (.boolean true) ∧
    evalPrefixExpression "!" .null = .ok (.boolean true) ∧
    (∀ o : Object, o ≠ .boolean true → o ≠ .boolean false → o ≠ .null →
      evalPrefixExpression "!" o = .ok (.boolean false)) ∧
    (∀ n : Int, i64Min ≤ n → n ≤ i64Max → n ≠ i64Min →
      evalPrefixExpression "-" (.integer n) = .ok (.integer (-n))) ∧
    (∀ o : Object, o.isInt = false → evalPrefixExpression "-" o = .ok .null) ∧
    runSource "-5" = some (.ok (.integer (-5)), []) ∧
    runSource "-true" = some (.ok .null, []) ∧
    runSource "!true" = some (.ok (.boolean false), []) ∧
    runSource "!!5" = some (.ok (.boolean true), []) := by
  refine ⟨rfl, rfl, rfl, ?_, ?_, ?_, rfl, rfl, rfl, rfl⟩
  · intro o h1 h2 h3
    cases o with
    | boolean b => cases b <;> simp_all
    | null => exact absurd rfl h3
    | integer n => rfl
    | returnValue v => rfl
  · intro n h1 h2 h3
    have hf : fitsI64 (-n) = true := by
      simp only [fitsI64, i64Min, i64Max, Bool.and_eq_true, decide_eq_true_eq] at *
      omega
    simp [evalPrefixExpression, evalMinusPrefixOperatorExpression, hf]
  · intro o h
    cases o <;> simp_all [Object.isInt, evalPrefixExpression,
      evalMinusPrefixOperatorExpression]

/-- Witness for C5 (amended) at concrete operands. -/
theorem c5_amended_prefix_eval_witness :
    evalPrefixExpression "!" (.integer 7) = .ok (.boolean false) ∧
    evalPrefixExpression "-" (.integer 5) = .ok (.integer (-5)) ∧
    evalPrefixExpression "-" (.boolean true) = .ok .null :=
  ⟨c5_amended_prefix_eval.2.2.2.1 (.integer 7) (by decide) (by decide) (by decide),
    c5_amended_prefix_eval.2.2.2.2.1 5 (by decide) (by decide) (by decide),
    c5_amended_prefix_eval.2.2.2.2.2.1 (.boolean true) rfl⟩

/-! ## Parser-state helper lemmas -/

theorem pushError_toks (m : String) (st : PState) : (pushError m st).toks = st.toks := rfl

theorem peekError_toks (k : TokenKind) (st : PState) : (peekError k st).toks = st.toks := rfl

theorem noPrefixParseFnError_toks (k : TokenKind) (st : PState) :
    (noPrefixParseFnError k st).toks = st.toks := rfl

theorem nextTokenP_toks (st : PState) : (nextTokenP st).toks = st.toks.tail := rfl

theorem nextTokenP_suffix (st : PState) : (nextTokenP st).toks <:+ st.toks :=
  List.tail_suffix _

theorem expectPeek_true_inv {k : TokenKind} {st st1 : PState}
    (h : expectPeek k st = (true, st1)) :
    st1 = nextTokenP st ∧ peekTokenIs k st = true := by
  unfold expectPeek at h
  split_ifs at h with hp
  · exact ⟨(Prod.mk.injEq _ _ _ _ ▸ h).2.symm, hp⟩
  · exact absurd (Prod.mk.injEq _ _ _ _ ▸ h).1.symm (by simp)

theorem expectPeek_false_inv {k : TokenKind} {st st1 : PState}
    (h : expectPeek k st = (false, st1)) :
    st1 = peekError k st ∧ peekTokenIs k st = false := by
  unfold expectPeek at h
  split_ifs at h with hp
  · exact absurd (Prod.mk.injEq _ _ _ _ ▸ h).1.symm (by simp)
  · exact ⟨(Prod.mk.injEq _ _ _ _ ▸ h).2.symm, by simpa using hp⟩

/-- A successful `expect_peek` for a non-`EOF` kind means at least two
stream elements remain (the satisfied peek plus the current token). -/
theorem peekTokenIs_len {k : TokenKind} {st : PState}
    (h : peekTokenIs k st = true) (hk : k ≠ .EOF) : 2 ≤ st.toks.length := by
  rcases hto : st.toks with - | ⟨a, l⟩
  · exfalso
    rw [peekTokenIs, peekToken, hto] at h
    simp only [List.tail_nil, List.headD_nil, beq_iff_eq] at h
    exact hk (h ▸ rfl)
  · rcases hl : l with - | ⟨b, l'⟩
    · exfalso
      rw [peekTokenIs, peekToken, hto, hl] at h
      simp only [List.tail_cons, List.headD_nil, beq_iff_eq] at h
      exact hk (h ▸ rfl)
    · simp [hto, hl]

/-- A current token other than `EOF` means the stream is nonempty. -/
theorem curTokenIs_eof_false_ne {st : PState}
    (h : curTokenIs .EOF st = false) : st.toks ≠ [] := by
  intro hto
  rw [curTokenIs, curToken, hto] at h
  simp [eofToken] at h

/-- A peek precedence of at least 1 means the peek token is a real token:
at least two stream elements remain. -/
theorem peekPrecedence_len {st : PState} (h : 1 ≤ peekPrecedence st) :
    2 ≤ st.toks.length := by
  rcases hto : st.toks with - | ⟨a, l⟩
  · exfalso
    rw [peekPrecedence, peekToken, hto] at h
    simp [eofToken, precedenceMap] at h
  · rcases hl : l with - | ⟨b, l'⟩
    · exfalso
      rw [peekPrecedence, peekToken, hto, hl] at h
      simp [eofToken, precedenceMap] at h
    · simp [hto, hl]

/-- Token kinds with a positive precedence all carry a registered infix
rule. -/
theorem pos_precedence_infix_rule (k : TokenKind) (h : 1 ≤ precedenceMap k) :
    (infixParseFns k).isSome = true := by
  cases k <;> simp_all [precedenceMap, infixParseFns]

/-- A registered prefix rule means the current token is not the padded
`EOF`, so the stream is nonempty. -/
theorem prefixRule_toks_ne {st : PState} {r : PrefixRule}
    (h : prefixParseFns (curToken st).kind = some r) : st.toks ≠ [] := by
  intro hto
  rw [curToken, hto] at h
  simp [eofToken, prefixParseFns] at h

theorem expectPeek_false_toks {k : TokenKind} {st st1 : PState}
    (h : expectPeek k st = (false, st1)) : st1.toks = st.toks := by
  rw [(expectPeek_false_inv h).1]; rfl

theorem expectPeek_true_toks {k : TokenKind} {st st1 : PState}
    (h : expectPeek k st = (true, st1)) : st1.toks = st.toks.tail := by
  rw [(expectPeek_true_inv h).1]; rfl

theorem expectPeek_suffix {k : TokenKind} {b : Bool} {st st1 : PState}
    (h : expectPeek k st = (b, st1)) : st1.toks <:+ st.toks := by
  cases b
  · rw [expectPeek_false_toks h]
  · rw [expectPeek_true_toks h]; exact List.tail_suffix _

/-- The optional-semicolon step at the end of the statement parsers. -/
theorem semi_opt_suffix (st : PState) :
    (if peekTokenIs .Semicolon st then nextTokenP st else st).toks <:+ st.toks := by
  split
  · exact List.tail_suffix _
  · exact List.suffix_refl _

/-- Chained-consumption bound: a suffix of the stream followed by one
`next_token` is strictly shorter than a nonempty starting stream. -/
theorem suffix_next_lt {st st1 : PState} (hsfx : st1.toks <:+ st.toks)
    (hne : st.toks ≠ []) : (nextTokenP st1).toks.length < st.toks.length := by
  rcases Nat.lt_or_ge st1.toks.length st.toks.length with hlt | hge
  · have := List.length_tail st1.toks
    rw [nextTokenP_toks]
    omega
  · have heq : st1.toks = st.toks := hsfx.eq_of_length (Nat.le_antisymm hsfx.length_le hge)
    rw [nextTokenP_toks, heq, List.length_tail]
    have := List.length_pos.mpr hne
    omega

/-! ## The parser only ever moves forward

One mutual induction on fuel: every parser function returns (on success)
a state whose token stream is a suffix of the input stream, and the two
infix-rule functions, invoked on a nonempty stream, consume at least one
token. -/

theorem parseSfx : ∀ fuel : Nat,
    (∀ st p st', parseProgram fuel st = .ok p st' → st'.toks <:+ st.toks) ∧
    (∀ acc st p st', parseProgramLoop fuel acc st = .ok p st' → st'.toks <:+ st.toks) ∧
    (∀ st v st', parseStatement fuel st = .ok v st' → st'.toks <:+ st.toks) ∧
    (∀ st v st', parseLetStatement fuel st = .ok v st' → st'.toks <:+ st.toks) ∧
    (∀ st v st', parseReturnStatement fuel st = .ok v st' → st'.toks <:+ st.toks) ∧
    (∀ st v st', parseExpressionStatement fuel st = .ok v st' → st'.toks <:+ st.toks) ∧
    (∀ prec st v st', parseExpression fuel prec st = .ok v st' → st'.toks <:+ st.toks) ∧
    (∀ rule st v st', runPrefixRule fuel rule st = .ok v st' → st'.toks <:+ st.toks) ∧
    (∀ prec left st v st',
      parseExpressionLoop fuel prec left st = .ok v st' → st'.toks <:+ st.toks) ∧
    (∀ st v st', parsePrefixExpression fuel st = .ok v st' → st'.toks <:+ st.toks) ∧
    (∀ rule left st v st',
      runInfixRule fuel rule left st = .ok v st' → st'.toks <:+ st.toks) ∧
    (∀ left st v st', parseInfixExpression fuel left st = .ok v st' → st'.toks <:+ st.toks) ∧
    (∀ st v st', parseGroupedExpression fuel st = .ok v st' → st'.toks <:+ st.toks) ∧
    (∀ st v st', parseIfExpression fuel st = .ok v st' → st'.toks <:+ st.toks) ∧
    (∀ st b st', parseBlockStatement fuel st = .ok b st' → st'.toks <:+ st.toks) ∧
    (∀ tok acc st b st', parseBlockLoop fuel tok acc st = .ok b st' → st'.toks <:+ st.toks) ∧
    (∀ st v st', parseFunctionLiteral fuel st = .ok v st' → st'.toks <:+ st.toks) ∧
    (∀ st v st', parseFunctionParameters fuel st = .ok v st' → st'.toks <:+ st.toks) ∧
    (∀ acc st v st',
      parseFunctionParametersLoop fuel acc st = .ok v st' → st'.toks <:+ st.toks) ∧
    (∀ left st v st', parseCallExpression fuel left st = .ok v st' → st'.toks <:+ st.toks) ∧
    (∀ st v st', parseCallArguments fuel st = .ok v st' → st'.toks <:+ st.toks) ∧
    (∀ acc st v st',
      parseCallArgumentsLoop fuel acc st = .ok v st' → st'.toks <:+ st.toks) ∧
    (∀ rule left st v st', st.toks ≠ [] → runInfixRule fuel rule left st = .ok v st' →
      st'.toks.length < st.toks.length) ∧
    (∀ left st v st', st.toks ≠ [] → parseInfixExpression fuel left st = .ok v st' →
      st'.toks.length < st.toks.length) ∧
    (∀ left st v st', st.toks ≠ [] → parseCallExpression fuel left st = .ok v st' →
      st'.toks.length < st.toks.length) := by
  intro fuel
  induction fuel with
  | zero =>
    refine ⟨?_, ?_, ?_, ?_, ?_, ?_, ?_, ?_, ?_, ?_, ?_, ?_, ?_, ?_, ?_, ?_, ?_, ?_, ?_,
      ?_, ?_, ?_, ?_, ?_, ?_⟩ <;> intros <;>
      simp_all [parseProgram, parseProgramLoop, parseStatement, parseLetStatement,
        parseReturnStatement, parseExpressionStatement, parseExpression, runPrefixRule,
        parseExpressionLoop, parsePrefixExpression, runInfixRule, parseInfixExpression,
        parseGroupedExpression, parseIfExpression, parseBlockStatement, parseBlockLoop,
        parseFunctionLiteral, parseFunctionParameters, parseFunctionParametersLoop,
        parseCallExpression, parseCallArguments, parseCallArgumentsLoop]
  | succ f ih =>
    obtain ⟨ihProg, ihProgLoop, ihStmt, ihLet, ihRet, ihExprStmt, ihExpr, ihPre, ihLoop,
      ihUnary, ihInRule, ihInfix, ihGroup, ihIf, ihBlock, ihBlockLoop, ihFn, ihParams,
      ihParamsLoop, ihCall, ihArgs, ihArgsLoop, ihInRuleLt, ihInfixLt, ihCallLt⟩ := ih
    refine ⟨?_, ?_, ?_, ?_, ?_, ?_, ?_, ?_, ?_, ?_, ?_, ?_, ?_, ?_, ?_, ?_, ?_, ?_, ?_,
      ?_, ?_, ?_, ?_, ?_, ?_⟩
    -- parseProgram
    · intro st p st' h
      simp only [parseProgram] at h
      exact ihProgLoop _ _ _ _ h
    -- parseProgramLoop
    · intro acc st p st' h
      simp only [parseProgramLoop] at h
      split at h
      · simp only [PRes.ok.injEq] at h
        obtain ⟨rfl, rfl⟩ := h
        exact List.suffix_refl _
      · split at h
        · rename_i stmt st1 heq
          exact ((ihProgLoop _ _ _ _ h).trans (nextTokenP_suffix st1)).trans
            (ihStmt _ _ _ heq)
        · rename_i st1 heq
          exact ((ihProgLoop _ _ _ _ h).trans (nextTokenP_suffix st1)).trans
            (ihStmt _ _ _ heq)
        · simp at h
        · simp at h
    -- parseStatement
    · intro st v st' h
      simp only [parseStatement] at h
      split at h
      · exact ihLet _ _ _ h
      · exact ihRet _ _ _ h
      · exact ihExprStmt _ _ _ h
    -- parseLetStatement
    · intro st v st' h
      simp only [parseLetStatement] at h
      split at h
      · rename_i st1 heq
        simp only [PRes.ok.injEq] at h
        obtain ⟨rfl, rfl⟩ := h
        rw [expectPeek_false_toks heq]
      · rename_i st1 heq1
        split at h
        · rename_i st2 heq2
          simp only [PRes.ok.injEq] at h
          obtain ⟨rfl, rfl⟩ := h
          rw [expectPeek_false_toks heq2]
          exact expectPeek_suffix heq1
        · rename_i st2 heq2
          split at h
          · rename_i value st4 heq3
            simp only [PRes.ok.injEq] at h
            obtain ⟨rfl, rfl⟩ := h
            exact (semi_opt_suffix st4).trans
              ((((ihExpr _ _ _ _ heq3).trans (nextTokenP_suffix st2)).trans
                (expectPeek_suffix heq2)).trans (expectPeek_suffix heq1))
          · simp at h
          · simp at h
    -- parseReturnStatement
    · intro st v st' h
      simp only [parseReturnStatement] at h
      split at h
      · rename_i value st2 heq
        simp only [PRes.ok.injEq] at h
        obtain ⟨rfl, rfl⟩ := h
        exact (semi_opt_suffix st2).trans
          ((ihExpr _ _ _ _ heq).trans (nextTokenP_suffix st))
      · simp at h
      · simp at h
    -- parseExpressionStatement
    · intro st v st' h
      simp only [parseExpressionStatement] at h
      split at h
      · rename_i expression st1 heq
        simp only [PRes.ok.injEq] at h
        obtain ⟨rfl, rfl⟩ := h
        exact (semi_opt_suffix st1).trans (ihExpr _ _ _ _ heq)
      · simp at h
      · simp at h
    -- parseExpression
    · intro prec st v st' h
      simp only [parseExpression] at h
      split at h
      · simp only [PRes.ok.injEq] at h
        obtain ⟨rfl, rfl⟩ := h
        rw [noPrefixParseFnError_toks]
      · split at h
        · rename_i leftExp st1 heq
          exact (ihLoop _ _ _ _ _ h).trans (ihPre _ _ _ _ heq)
        · simp at h
        · simp at h
    -- runPrefixRule
    · intro rule st v st' h
      simp only [runPrefixRule] at h
      split at h
      · simp only [parseIdentifier, PRes.ok.injEq] at h
        obtain ⟨rfl, rfl⟩ := h
        exact List.suffix_refl _
      · simp only [parseIntegerLiteral] at h
        split at h
        · simp only [PRes.ok.injEq] at h
          obtain ⟨rfl, rfl⟩ := h
          exact List.suffix_refl _
        · simp only [PRes.ok.injEq] at h
          obtain ⟨rfl, rfl⟩ := h
          rw [pushError_toks]
      · exact ihUnary _ _ _ h
      · simp only [parseBoolean, PRes.ok.injEq] at h
        obtain ⟨rfl, rfl⟩ := h
        exact List.suffix_refl _
      · exact ihGroup _ _ _ h
      · exact ihIf _ _ _ h
      · exact ihFn _ _ _ h
    -- parseExpressionLoop
    · intro prec left st v st' h
      simp only [parseExpressionLoop] at h
      split at h
      · split at h
        · split at h
          · simp at h
          · split at h
            · rename_i newLeft st1 heq
              exact (ihLoop _ _ _ _ _ h).trans (ihInRule _ _ _ _ _ heq)
            · simp at h
            · simp at h
        · exact ihLoop _ _ _ _ _ h
      · simp only [PRes.ok.injEq] at h
        obtain ⟨rfl, rfl⟩ := h
        exact List.suffix_refl _
    -- parsePrefixExpression
    · intro st v st' h
      simp only [parsePrefixExpression] at h
      split at h
      · rename_i right st2 heq
        simp only [PRes.ok.injEq] at h
        obtain ⟨rfl, rfl⟩ := h
        exact (ihExpr _ _ _ _ heq).trans (nextTokenP_suffix st)
      · rename_i st2 heq
        simp only [PRes.ok.injEq] at h
        obtain ⟨rfl, rfl⟩ := h
        exact (ihExpr _ _ _ _ heq).trans (nextTokenP_suffix st)
      · simp at h
      · simp at h
    -- runInfixRule
    · intro rule left st v st' h
      simp only [runInfixRule] at h
      split at h
      · exact ihInfix _ _ _ _ h
      · exact ihCall _ _ _ _ h
    -- parseInfixExpression
    · intro left st v st' h
      simp only [parseInfixExpression] at h
      split at h
      · rename_i right st3 heq
        simp only [PRes.ok.injEq] at h
        obtain ⟨rfl, rfl⟩ := h
        exact (ihExpr _ _ _ _ heq).trans
          ((nextTokenP_suffix _).trans (nextTokenP_suffix st))
      · rename_i st3 heq
        simp only [PRes.ok.injEq] at h
        obtain ⟨rfl, rfl⟩ := h
        exact (ihExpr _ _ _ _ heq).trans
          ((nextTokenP_suffix _).trans (nextTokenP_suffix st))
      · simp at h
      · simp at h
    -- parseGroupedExpression
    · intro st v st' h
      simp only [parseGroupedExpression] at h
      split at h
      · rename_i exp st2 heq
        split at h
        · rename_i st3 heq2
          simp only [PRes.ok.injEq] at h
          obtain ⟨rfl, rfl⟩ := h
          rw [expectPeek_false_toks heq2]
          exact (ihExpr _ _ _ _ heq).trans (nextTokenP_suffix st)
        · rename_i st3 heq2
          simp only [PRes.ok.injEq] at h
          obtain ⟨rfl, rfl⟩ := h
          exact (expectPeek_suffix heq2).trans
            ((ihExpr _ _ _ _ heq).trans (nextTokenP_suffix st))
      · simp at h
      · simp at h
    -- parseIfExpression
    · intro st v st' h
      simp only [parseIfExpression] at h
      split at h
      · rename_i st1 heq0
        simp only [PRes.ok.injEq] at h
        obtain ⟨rfl, rfl⟩ := h
        rw [expectPeek_false_toks heq0]
      · rename_i st1 heq0
        split at h
        · rename_i condOpt st3 heq1
          split at h
          · simp at h
          · rename_i condition
            have hst3 : st3.toks <:+ st.toks :=
              ((ihExpr _ _ _ _ heq1).trans (nextTokenP_suffix st1)).trans
                (expectPeek_suffix heq0)
            split at h
            · rename_i st4 heq2
              simp only [PRes.ok.injEq] at h
              obtain ⟨rfl, rfl⟩ := h
              rw [expectPeek_false_toks heq2]
              exact hst3
            · rename_i st4 heq2
              have hst4 : st4.toks <:+ st.toks := (expectPeek_suffix heq2).trans hst3
              split at h
              · rename_i st5 heq3
                simp only [PRes.ok.injEq] at h
                obtain ⟨rfl, rfl⟩ := h
                rw [expectPeek_false_toks heq3]
                exact hst4
              · rename_i st5 heq3
                have hst5 : st5.toks <:+ st.toks := (expectPeek_suffix heq3).trans hst4
                split at h
                · rename_i consequence st6 heq4
                  have hst6 : st6.toks <:+ st.toks :=
                    (ihBlock _ _ _ heq4).trans hst5
                  split at h
                  · split at h
                    · rename_i st8 heq5
                      simp only [PRes.ok.injEq] at h
                      obtain ⟨rfl, rfl⟩ := h
                      rw [expectPeek_false_toks heq5]
                      exact (nextTokenP_suffix st6).trans hst6
                    · rename_i st8 heq5
                      have hst8 : st8.toks <:+ st.toks :=
                        ((expectPeek_suffix heq5).trans (nextTokenP_suffix st6)).trans
                          hst6
                      split at h
                      · rename_i alt st9 heq6
                        simp only [PRes.ok.injEq] at h
                        obtain ⟨rfl, rfl⟩ := h
                        exact (ihBlock _ _ _ heq6).trans hst8
                      · simp at h
                      · simp at h
                  · simp only [PRes.ok.injEq] at h
                    obtain ⟨rfl, rfl⟩ := h
                    exact hst6
                · simp at h
                · simp at h
        · simp at h
        · simp at h
    -- parseBlockStatement
    · intro st b st' h
      simp only [parseBlockStatement] at h
      exact (ihBlockLoop _ _ _ _ _ h).trans (nextTokenP_suffix st)
    -- parseBlockLoop
    · intro tok acc st b st' h
      simp only [parseBlockLoop] at h
      split at h
      · split at h
        · rename_i stmt st1 heq
          exact ((ihBlockLoop _ _ _ _ _ h).trans (nextTokenP_suffix st1)).trans
            (ihStmt _ _ _ heq)
        · rename_i st1 heq
          exact ((ihBlockLoop _ _ _ _ _ h).trans (nextTokenP_suffix st1)).trans
            (ihStmt _ _ _ heq)
        · simp at h
        · simp at h
      · simp only [PRes.ok.injEq] at h
        obtain ⟨rfl, rfl⟩ := h
        exact List.suffix_refl _
    -- parseFunctionLiteral
    · intro st v st' h
      simp only [parseFunctionLiteral] at h
      split at h
      · rename_i st1 heq0
        simp only [PRes.ok.injEq] at h
        obtain ⟨rfl, rfl⟩ := h
        rw [expectPeek_false_toks heq0]
      · rename_i st1 heq0
        split at h
        · rename_i paramsOpt st2 heq1
          split at h
          · simp at h
          · rename_i parameters
            have hst2 : st2.toks <:+ st.toks :=
              (ihParams _ _ _ heq1).trans (expectPeek_suffix heq0)
            split at h
            · rename_i st3 heq2
              simp only [PRes.ok.injEq] at h
              obtain ⟨rfl, rfl⟩ := h
              rw [expectPeek_false_toks heq2]
              exact hst2
            · rename_i st3 heq2
              split at h
              · rename_i body st4 heq3
                simp only [PRes.ok.injEq] at h
                obtain ⟨rfl, rfl⟩ := h
                exact (ihBlock _ _ _ heq3).trans
                  ((expectPeek_suffix heq2).trans hst2)
              · simp at h
              · simp at h
        · simp at h
        · simp at h
    -- parseFunctionParameters
    · intro st v st' h
      simp only [parseFunctionParameters] at h
      split at h
      · simp only [PRes.ok.injEq] at h
        obtain ⟨rfl, rfl⟩ := h
        exact nextTokenP_suffix st
      · exact (ihParamsLoop _ _ _ _ h).trans (nextTokenP_suffix st)
    -- parseFunctionParametersLoop
    · intro acc st v st' h
      simp only [parseFunctionParametersLoop] at h
      split at h
      · exact (ihParamsLoop _ _ _ _ h).trans
          ((nextTokenP_suffix _).trans (nextTokenP_suffix st))
      · split at h
        · rename_i st1 heq
          simp only [PRes.ok.injEq] at h
          obtain ⟨rfl, rfl⟩ := h
          rw [expectPeek_false_toks heq]
        · rename_i st1 heq
          simp only [PRes.ok.injEq] at h
          obtain ⟨rfl, rfl⟩ := h
          exact expectPeek_suffix heq
    -- parseCallExpression
    · intro left st v st' h
      simp only [parseCallExpression] at h
      split at h
      · rename_i argsOpt st2 heq
        split at h
        · simp at h
        · rename_i args
          simp only [PRes.ok.injEq] at h
          obtain ⟨rfl, rfl⟩ := h
          exact (ihArgs _ _ _ heq).trans (nextTokenP_suffix st)
      · simp at h
      · simp at h
    -- parseCallArguments
    · intro st v st' h
      simp only [parseCallArguments] at h
      split at h
      · simp only [PRes.ok.injEq] at h
        obtain ⟨rfl, rfl⟩ := h
        exact nextTokenP_suffix st
      · split at h
        · rename_i firstOpt st2 heq
          split at h
          · simp at h
          · rename_i first
            exact (ihArgsLoop _ _ _ _ h).trans
              ((ihExpr _ _ _ _ heq).trans (nextTokenP_suffix st))
        · simp at h
        · simp at h
    -- parseCallArgumentsLoop
    · intro acc st v st' h
      simp only [parseCallArgumentsLoop] at h
      split at h
      · split at h
        · rename_i argOpt st2 heq
          split at h
          · simp at h
          · rename_i arg
            exact (ihArgsLoop _ _ _ _ h).trans
              ((ihExpr _ _ _ _ heq).trans
                ((nextTokenP_suffix _).trans (nextTokenP_suffix st)))
        · simp at h
        · simp at h
      · split at h
        · rename_i st1 heq
          simp only [PRes.ok.injEq] at h
          obtain ⟨rfl, rfl⟩ := h
          rw [expectPeek_false_toks heq]
        · rename_i st1 heq
          simp only [PRes.ok.injEq] at h
          obtain ⟨rfl, rfl⟩ := h
          exact expectPeek_suffix heq
    -- runInfixRule (strict)
    · intro rule left st v st' hne h
      simp only [runInfixRule] at h
      split at h
      · exact ihInfixLt _ _ _ _ hne h
      · exact ihCallLt _ _ _ _ hne h
    -- parseInfixExpression (strict)
    · intro left st v st' hne h
      have hpos := List.length_pos.mpr hne
      simp only [parseInfixExpression] at h
      have htail : (nextTokenP (nextTokenP st)).toks.length < st.toks.length := by
        simp only [nextTokenP_toks, List.length_tail]
        omega
      split at h
      · rename_i right st3 heq
        simp only [PRes.ok.injEq] at h
        obtain ⟨rfl, rfl⟩ := h
        exact Nat.lt_of_le_of_lt (ihExpr _ _ _ _ heq).length_le htail
      · rename_i st3 heq
        simp only [PRes.ok.injEq] at h
        obtain ⟨rfl, rfl⟩ := h
        exact Nat.lt_of_le_of_lt (ihExpr _ _ _ _ heq).length_le htail
      · simp at h
      · simp at h
    -- parseCallExpression (strict)
    · intro left st v st' hne h
      have hpos := List.length_pos.mpr hne
      simp only [parseCallExpression] at h
      have htail : (nextTokenP st).toks.length < st.toks.length := by
        simp only [nextTokenP_toks, List.length_tail]
        omega
      split at h
      · rename_i argsOpt st2 heq
        split at h
        · simp at h
        · rename_i args
          simp only [PRes.ok.injEq] at h
          obtain ⟨rfl, rfl⟩ := h
          exact Nat.lt_of_le_of_lt (ihArgs _ _ _ heq).length_le htail
      · simp at h
      · simp at h

/-! Named corollaries of `parseSfx`. -/

theorem parseStatement_sfx (fuel : Nat) {st : PState} {v : Option StatementNode}
    {st' : PState} (h : parseStatement fuel st = .ok v st') : st'.toks <:+ st.toks :=
  (parseSfx fuel).2.2.1 _ _ _ h

theorem parseExpression_sfx (fuel : Nat) {prec : Nat} {st : PState}
    {v : Option ExpressionNode} {st' : PState}
    (h : parseExpression fuel prec st = .ok v st') : st'.toks <:+ st.toks :=
  (parseSfx fuel).2.2.2.2.2.2.1 _ _ _ _ h

theorem runPrefixRule_sfx (fuel : Nat) {rule : PrefixRule} {st : PState}
    {v : Option ExpressionNode} {st' : PState}
    (h : runPrefixRule fuel rule st = .ok v st') : st'.toks <:+ st.toks :=
  (parseSfx fuel).2.2.2.2.2.2.2.1 _ _ _ _ h

theorem parseBlockStatement_sfx (fuel : Nat) {st : PState} {b : BlockStatement}
    {st' : PState} (h : parseBlockStatement fuel st = .ok b st') : st'.toks <:+ st.toks :=
  (parseSfx fuel).2.2.2.2.2.2.2.2.2.2.2.2.2.2.1 _ _ _ h

theorem parseFunctionParameters_sfx (fuel : Nat) {st : PState}
    {v : Option (List Identifier)} {st' : PState}
    (h : parseFunctionParameters fuel st = .ok v st') : st'.toks <:+ st.toks :=
  (parseSfx fuel).2.2.2.2.2.2.2.2.2.2.2.2.2.2.2.2.2.1 _ _ _ h

theorem runInfixRule_lt (fuel : Nat) {rule : InfixRule} {left : ExpressionNode}
    {st : PState} {v : Option ExpressionNode} {st' : PState} (hne : st.toks ≠ [])
    (h : runInfixRule fuel rule left st = .ok v st') :
    st'.toks.length < st.toks.length :=
  (parseSfx fuel).2.2.2.2.2.2.2.2.2.2.2.2.2.2.2.2.2.2.2.2.2.2.1 _ _ _ _ _ hne h

theorem parseInfixExpression_lt (fuel : Nat) {left : ExpressionNode}
    {st : PState} {v : Option ExpressionNode} {st' : PState} (hne : st.toks ≠ [])
    (h : parseInfixExpression fuel left st = .ok v st') :
    st'.toks.length < st.toks.length :=
  (parseSfx fuel).2.2.2.2.2.2.2.2.2.2.2.2.2.2.2.2.2.2.2.2.2.2.2.1 _ _ _ _ hne h

theorem parseCallExpression_lt (fuel : Nat) {left : ExpressionNode}
    {st : PState} {v : Option ExpressionNode} {st' : PState} (hne : st.toks ≠ [])
    (h : parseCallExpression fuel left st = .ok v st') :
    st'.toks.length < st.toks.length :=
  (parseSfx fuel).2.2.2.2.2.2.2.2.2.2.2.2.2.2.2.2.2.2.2.2.2.2.2.2 _ _ _ _ hne h

/-! ## Fuel sufficiency: the parser terminates

One mutual induction on fuel: with fuel linear in the number of remaining
tokens, no parser function ever runs out of fuel.  The slack constant per
function reflects the depth of non-consuming call chains
(`parse_program` loop → `parse_statement` → `parse_expression_statement`
→ `parse_expression` → rule dispatch); every cycle in the call graph
passes through at least one consumed token. -/

theorem parseSuff : ∀ fuel : Nat,
    (∀ st, 10 * st.toks.length + 10 ≤ fuel → parseProgram fuel st ≠ .fuelOut) ∧
    (∀ acc st, 10 * st.toks.length + 9 ≤ fuel → parseProgramLoop fuel acc st ≠ .fuelOut) ∧
    (∀ st, 10 * st.toks.length + 8 ≤ fuel → parseStatement fuel st ≠ .fuelOut) ∧
    (∀ st, 10 * st.toks.length + 7 ≤ fuel → parseLetStatement fuel st ≠ .fuelOut) ∧
    (∀ st, 10 * st.toks.length + 7 ≤ fuel → parseReturnStatement fuel st ≠ .fuelOut) ∧
    (∀ st, 10 * st.toks.length + 7 ≤ fuel →
      parseExpressionStatement fuel st ≠ .fuelOut) ∧
    (∀ prec st, 10 * st.toks.length + 6 ≤ fuel → parseExpression fuel prec st ≠ .fuelOut) ∧
    (∀ rule st, st.toks ≠ [] → 10 * st.toks.length + 5 ≤ fuel →
      runPrefixRule fuel rule st ≠ .fuelOut) ∧
    (∀ prec left st, 10 * st.toks.length + 5 ≤ fuel →
      parseExpressionLoop fuel prec left st ≠ .fuelOut) ∧
    (∀ st, st.toks ≠ [] → 10 * st.toks.length + 4 ≤ fuel →
      parsePrefixExpression fuel st ≠ .fuelOut) ∧
    (∀ rule left st, 2 ≤ st.toks.length → 10 * st.toks.length + 4 ≤ fuel →
      runInfixRule fuel rule left st ≠ .fuelOut) ∧
    (∀ left st, 2 ≤ st.toks.length → 10 * st.toks.length + 3 ≤ fuel →
      parseInfixExpression fuel left st ≠ .fuelOut) ∧
    (∀ st, st.toks ≠ [] → 10 * st.toks.length + 4 ≤ fuel →
      parseGroupedExpression fuel st ≠ .fuelOut) ∧
    (∀ st, 10 * st.toks.length + 4 ≤ fuel → parseIfExpression fuel st ≠ .fuelOut) ∧
    (∀ st, 10 * st.toks.length + 10 ≤ fuel → parseBlockStatement fuel st ≠ .fuelOut) ∧
    (∀ tok acc st, 10 * st.toks.length + 9 ≤ fuel →
      parseBlockLoop fuel tok acc st ≠ .fuelOut) ∧
    (∀ st, 10 * st.toks.length + 4 ≤ fuel → parseFunctionLiteral fuel st ≠ .fuelOut) ∧
    (∀ st, 10 * st.toks.length + 7 ≤ fuel → parseFunctionParameters fuel st ≠ .fuelOut) ∧
    (∀ acc st, 10 * st.toks.length + 6 ≤ fuel →
      parseFunctionParametersLoop fuel acc st ≠ .fuelOut) ∧
    (∀ left st, 2 ≤ st.toks.length → 10 * st.toks.length + 3 ≤ fuel →
      parseCallExpression fuel left st ≠ .fuelOut) ∧
    (∀ st, st.toks ≠ [] → 10 * st.toks.length + 7 ≤ fuel →
      parseCallArguments fuel st ≠ .fuelOut) ∧
    (∀ acc st, 10 * st.toks.length + 7 ≤ fuel →
      parseCallArgumentsLoop fuel acc st ≠ .fuelOut) := by
  intro fuel
  induction fuel with
  | zero =>
    refine ⟨?_, ?_, ?_, ?_, ?_, ?_, ?_, ?_, ?_, ?_, ?_, ?_, ?_, ?_, ?_, ?_, ?_, ?_, ?_,
      ?_, ?_, ?_⟩ <;> intros <;> exfalso <;> omega
  | succ f ih =>
    obtain ⟨ihProg, ihProgLoop, ihStmt, ihLet, ihRet, ihExprStmt, ihExpr, ihPre, ihLoop,
      ihUnary, ihInRule, ihInfix, ihGroup, ihIf, ihBlock, ihBlockLoop, ihFn, ihParams,
      ihParamsLoop, ihCall, ihArgs, ihArgsLoop⟩ := ih
    refine ⟨?_, ?_, ?_, ?_, ?_, ?_, ?_, ?_, ?_, ?_, ?_, ?_, ?_, ?_, ?_, ?_, ?_, ?_, ?_,
      ?_, ?_, ?_⟩
    -- parseProgram
    · intro st hfuel habs
      simp only [parseProgram] at habs
      exact ihProgLoop [] st (by omega) habs
    -- parseProgramLoop
    · intro acc st hfuel habs
      simp only [parseProgramLoop] at habs
      split at habs
      · simp at habs
      · rename_i hcond
        have hne : st.toks ≠ [] := curTokenIs_eof_false_ne (by simpa using hcond)
        have hpos := List.length_pos.mpr hne
        split at habs
        · rename_i stmt st1 heq
          have hlt := suffix_next_lt (parseStatement_sfx f heq) hne
          exact ihProgLoop _ _ (by omega) habs
        · rename_i st1 heq
          have hlt := suffix_next_lt (parseStatement_sfx f heq) hne
          exact ihProgLoop _ _ (by omega) habs
        · simp at habs
        · rename_i heq
          exact ihStmt st (by omega) heq
    -- parseStatement
    · intro st hfuel habs
      simp only [parseStatement] at habs
      split at habs
      · exact ihLet st (by omega) habs
      · exact ihRet st (by omega) habs
      · exact ihExprStmt st (by omega) habs
    -- parseLetStatement
    · intro st hfuel habs
      simp only [parseLetStatement] at habs
      split at habs
      · simp at habs
      · rename_i st1 heq1
        have hL := peekTokenIs_len (expectPeek_true_inv heq1).2 (by decide)
        have e1 : st1.toks.length = st.toks.length - 1 := by
          rw [expectPeek_true_toks heq1, List.length_tail]
        split at habs
        · simp at habs
        · rename_i st2 heq2
          have e2 : st2.toks.length = st1.toks.length - 1 := by
            rw [expectPeek_true_toks heq2, List.length_tail]
          have e3 : (nextTokenP st2).toks.length = st2.toks.length - 1 := by
            rw [nextTokenP_toks, List.length_tail]
          split at habs
          · simp at habs
          · simp at habs
          · rename_i heq3
            exact ihExpr 0 _ (by omega) heq3
    -- parseReturnStatement
    · intro st hfuel habs
      simp only [parseReturnStatement] at habs
      have e1 : (nextTokenP st).toks.length = st.toks.length - 1 := by
        rw [nextTokenP_toks, List.length_tail]
      split at habs
      · simp at habs
      · simp at habs
      · rename_i heq
        exact ihExpr 0 _ (by omega) heq
    -- parseExpressionStatement
    · intro st hfuel habs
      simp only [parseExpressionStatement] at habs
      split at habs
      · simp at habs
      · simp at habs
      · rename_i heq
        exact ihExpr 0 st (by omega) heq
    -- parseExpression
    · intro prec st hfuel habs
      simp only [parseExpression] at habs
      split at habs
      · simp at habs
      · rename_i rule heqRule
        split at habs
        · rename_i leftExp st1 heq
          have hle := (runPrefixRule_sfx f heq).length_le
          exact ihLoop prec leftExp st1 (by omega) habs
        · simp at habs
        · rename_i heq
          exact ihPre rule st (prefixRule_toks_ne heqRule) (by omega) heq
    -- runPrefixRule
    · intro rule st hne hfuel habs
      simp only [runPrefixRule] at habs
      split at habs
      · simp [parseIdentifier] at habs
      · simp only [parseIntegerLiteral] at habs
        split at habs <;> simp at habs
      · exact ihUnary st hne (by omega) habs
      · simp [parseBoolean] at habs
      · exact ihGroup st hne (by omega) habs
      · exact ihIf st (by omega) habs
      · exact ihFn st (by omega) habs
    -- parseExpressionLoop
    · intro prec left st hfuel habs
      simp only [parseExpressionLoop] at habs
      split at habs
      · rename_i hcond
        have hL : 2 ≤ st.toks.length := peekPrecedence_len (by omega)
        have hne : st.toks ≠ [] := List.length_pos.mp (by omega)
        split at habs
        · rename_i rule heqR
          split at habs
          · simp at habs
          · rename_i l
            split at habs
            · rename_i newLeft st1 heq
              have hlt := runInfixRule_lt f hne heq
              exact ihLoop prec newLeft st1 (by omega) habs
            · simp at habs
            · rename_i heq
              exact ihInRule rule l st hL (by omega) heq
        · rename_i heqN
          exfalso
          have h1 : 1 ≤ peekPrecedence st := by omega
          rw [peekPrecedence] at h1
          have := pos_precedence_infix_rule _ h1
          rw [heqN] at this
          simp at this
      · simp at habs
    -- parsePrefixExpression
    · intro st hne hfuel habs
      have hpos := List.length_pos.mpr hne
      have e1 : (nextTokenP st).toks.length = st.toks.length - 1 := by
        rw [nextTokenP_toks, List.length_tail]
      simp only [parsePrefixExpression] at habs
      split at habs
      · simp at habs
      · simp at habs
      · simp at habs
      · rename_i heq
        exact ihExpr 5 _ (by omega) heq
    -- runInfixRule
    · intro rule left st hL hfuel habs
      simp only [runInfixRule] at habs
      split at habs
      · exact ihInfix left st hL (by omega) habs
      · exact ihCall left st hL (by omega) habs
    -- parseInfixExpression
    · intro left st hL hfuel habs
      have e1 : (nextTokenP st).toks.length = st.toks.length - 1 := by
        rw [nextTokenP_toks, List.length_tail]
      have e2 : (nextTokenP (nextTokenP st)).toks.length =
          (nextTokenP st).toks.length - 1 := by
        rw [nextTokenP_toks, nextTokenP_toks, List.length_tail, List.length_tail]
      simp only [parseInfixExpression] at habs
      split at habs
      · simp at habs
      · simp at habs
      · simp at habs
      · rename_i heq
        exact ihExpr _ _ (by omega) heq
    -- parseGroupedExpression
    · intro st hne hfuel habs
      have hpos := List.length_pos.mpr hne
      have e1 : (nextTokenP st).toks.length = st.toks.length - 1 := by
        rw [nextTokenP_toks, List.length_tail]
      simp only [parseGroupedExpression] at habs
      split at habs
      · split at habs <;> simp at habs
      · simp at habs
      · rename_i heq
        exact ihExpr 0 _ (by omega) heq
    -- parseIfExpression
    · intro st hfuel habs
      simp only [parseIfExpression] at habs
      split at habs
      · simp at habs
      · rename_i st1 heq0
        have hL := peekTokenIs_len (expectPeek_true_inv heq0).2 (by decide)
        have e1 : st1.toks.length = st.toks.length - 1 := by
          rw [expectPeek_true_toks heq0, List.length_tail]
        have e2 : (nextTokenP st1).toks.length = st1.toks.length - 1 := by
          rw [nextTokenP_toks, List.length_tail]
        split at habs
        · rename_i condOpt st3 heq1
          have hle3 := (parseExpression_sfx f heq1).length_le
          split at habs
          · simp at habs
          · rename_i condition
            split at habs
            · simp at habs
            · rename_i st4 heq2
              have e4 : st4.toks.length = st3.toks.length - 1 := by
                rw [expectPeek_true_toks heq2, List.length_tail]
              split at habs
              · simp at habs
              · rename_i st5 heq3
                have e5 : st5.toks.length = st4.toks.length - 1 := by
                  rw [expectPeek_true_toks heq3, List.length_tail]
                split at habs
                · rename_i consequence st6 heq4
                  have hle6 := (parseBlockStatement_sfx f heq4).length_le
                  split at habs
                  · split at habs
                    · simp at habs
                    · rename_i st8 heq5
                      have e6 : (nextTokenP st6).toks.length = st6.toks.length - 1 := by
                        rw [nextTokenP_toks, List.length_tail]
                      have e8 : st8.toks.length = (nextTokenP st6).toks.length - 1 := by
                        rw [expectPeek_true_toks heq5, List.length_tail]
                      split at habs
                      · simp at habs
                      · simp at habs
                      · rename_i heq6
                        exact ihBlock st8 (by omega) heq6
                  · simp at habs
                · simp at habs
                · rename_i heq4
                  exact ihBlock st5 (by omega) heq4
        · simp at habs
        · rename_i heq1
          exact ihExpr 0 _ (by omega) heq1
    -- parseBlockStatement
    · intro st hfuel habs
      have e1 : (nextTokenP st).toks.length = st.toks.length - 1 := by
        rw [nextTokenP_toks, List.length_tail]
      simp only [parseBlockStatement] at habs
      exact ihBlockLoop _ [] _ (by omega) habs
    -- parseBlockLoop
    · intro tok acc st hfuel habs
      simp only [parseBlockLoop] at habs
      split at habs
      · rename_i hcond
        have hne : st.toks ≠ [] := curTokenIs_eof_false_ne (by simpa using hcond.2)
        have hpos := List.length_pos.mpr hne
        split at habs
        · rename_i stmt st1 heq
          have hlt := suffix_next_lt (parseStatement_sfx f heq) hne
          exact ihBlockLoop _ _ _ (by omega) habs
        · rename_i st1 heq
          have hlt := suffix_next_lt (parseStatement_sfx f heq) hne
          exact ihBlockLoop _ _ _ (by omega) habs
        · simp at habs
        · rename_i heq
          exact ihStmt st (by omega) heq
      · simp at habs
    -- parseFunctionLiteral
    · intro st hfuel habs
      simp only [parseFunctionLiteral] at habs
      split at habs
      · simp at habs
      · rename_i st1 heq0
        have hL := peekTokenIs_len (expectPeek_true_inv heq0).2 (by decide)
        have e1 : st1.toks.length = st.toks.length - 1 := by
          rw [expectPeek_true_toks heq0, List.length_tail]
        split at habs
        · rename_i paramsOpt st2 heq1
          have hle2 := (parseFunctionParameters_sfx f heq1).length_le
          split at habs
          · simp at habs
          · rename_i parameters
            split at habs
            · simp at habs
            · rename_i st3 heq2
              have e3 : st3.toks.length = st2.toks.length - 1 := by
                rw [expectPeek_true_toks heq2, List.length_tail]
              split at habs
              · simp at habs
              · simp at habs
              · rename_i heq3
                exact ihBlock st3 (by omega) heq3
        · simp at habs
        · rename_i heq1
          exact ihParams st1 (by omega) heq1
    -- parseFunctionParameters
    · intro st hfuel habs
      simp only [parseFunctionParameters] at habs
      split at habs
      · simp at habs
      · have e1 : (nextTokenP st).toks.length = st.toks.length - 1 := by
          rw [nextTokenP_toks, List.length_tail]
        exact ihParamsLoop _ _ (by omega) habs
    -- parseFunctionParametersLoop
    · intro acc st hfuel habs
      simp only [parseFunctionParametersLoop] at habs
      split at habs
      · rename_i hcomma
        have hL := peekTokenIs_len hcomma (by decide)
        have e1 : (nextTokenP (nextTokenP st)).toks.length = st.toks.length - 2 := by
          rw [nextTokenP_toks, nextTokenP_toks, List.length_tail, List.length_tail]
          omega
        exact ihParamsLoop _ _ (by omega) habs
      · split at habs <;> simp at habs
    -- parseCallExpression
    · intro left st hL hfuel habs
      have e1 : (nextTokenP st).toks.length = st.toks.length - 1 := by
        rw [nextTokenP_toks, List.length_tail]
      have hne1 : (nextTokenP st).toks ≠ [] := List.length_pos.mp (by omega)
      simp only [parseCallExpression] at habs
      split at habs
      · split at habs <;> simp at habs
      · simp at habs
      · rename_i heq
        exact ihArgs _ hne1 (by omega) heq
    -- parseCallArguments
    · intro st hne hfuel habs
      have hpos := List.length_pos.mpr hne
      have e1 : (nextTokenP st).toks.length = st.toks.length - 1 := by
        rw [nextTokenP_toks, List.length_tail]
      simp only [parseCallArguments] at habs
      split at habs
      · simp at habs
      · split at habs
        · rename_i firstOpt st2 heq
          have hle2 := (parseExpression_sfx f heq).length_le
          split at habs
          · simp at habs
          · rename_i first
            exact ihArgsLoop _ _ (by omega) habs
        · simp at habs
        · rename_i heq
          exact ihExpr 0 _ (by omega) heq
    -- parseCallArgumentsLoop
    · intro acc st hfuel habs
      simp only [parseCallArgumentsLoop] at habs
      split at habs
      · rename_i hcomma
        have hL := peekTokenIs_len hcomma (by decide)
        have e1 : (nextTokenP (nextTokenP st)).toks.length = st.toks.length - 2 := by
          rw [nextTokenP_toks, nextTokenP_toks, List.length_tail, List.length_tail]
          omega
        split at habs
        · rename_i argOpt st2 heq
          have hle2 := (parseExpression_sfx f heq).length_le
          split at habs
          · simp at habs
          · rename_i arg
            exact ihArgsLoop _ _ (by omega) habs
        · simp at habs
        · rename_i heq
          exact ihExpr 0 _ (by omega) heq
      · split at habs <;> simp at habs

/-! ## Tokenizer progress and the loop-stop facts -/

theorem skipWhitespace_length (cs : List Char) :
    (skipWhitespace cs).length ≤ cs.length := by
  induction cs with
  | nil => simp [skipWhitespace]
  | cons c rest ih =>
    unfold skipWhitespace
    split
    · exact Nat.le_trans ih (by simp)
    · simp

theorem nextTokenCore_lt (l : List Char) (h : (nextTokenCore l).1.kind ≠ .EOF) :
    (nextTokenCore l).2.length < l.length := by
  cases l with
  | nil => exact absurd rfl h
  | cons c rest =>
    cases hsc : singleCharKind c with
    | some k =>
      simp only [nextTokenCore, hsc]
      simp
    | none =>
      simp only [nextTokenCore, hsc] at h ⊢
      split_ifs at h ⊢ with h1 h2 h3
      · exact absurd rfl h
      · simp only [readIdentifier]
        have : (List.dropWhile isLetter (c :: rest)).length = (rest.dropWhile isLetter).length := by
          simp [List.dropWhile_cons, h2]
        rw [this]
        have := (List.dropWhile_suffix (l := rest) isLetter).length_le
        simp only [List.length_cons]
        omega
      · simp only [readNumber]
        have : (List.dropWhile isDigit (c :: rest)).length = (rest.dropWhile isDigit).length := by
          simp [List.dropWhile_cons, h3]
        rw [this]
        have := (List.dropWhile_suffix (l := rest) isDigit).length_le
        simp only [List.length_cons]
        omega
      · simp

theorem no_infix_rule_prec (k : TokenKind) (h : infixParseFns k = none) :
    precedenceMap k = 0 := by
  cases k <;> simp_all [infixParseFns, precedenceMap]

/-! ## Claim theorem: termination -/

/-- C6: the pipeline terminates on every finite input.  (1) Every
`next_token` call that does not produce the `EOF` token consumes at least
one character.  (2) With fuel linear in the token count (`parseFuel`),
`parse_program` never exhausts its fuel — the fuel marker of the
embedding is unreachable, so the fueled parser computes the same
terminating result the Rust recursion does; in particular `parseSource`
never runs out.  (3) The precedence-climbing loop of `parse_expression`
stops immediately when no infix rule exists for the upcoming token
(such a token has precedence `Lowest`, falsifying the loop condition).
(4) An invoked infix rule consumes at least one token.  The evaluator's
recursion is structural on the tree, so it is total by construction. -/
theorem c6_termination :
    (∀ cs : List Char, (nextToken cs).1.kind ≠ .EOF →
      (nextToken cs).2.length < cs.length) ∧
    (∀ toks : List Token, ∀ errors : List String,
      parseProgram (parseFuel toks) ⟨toks, errors⟩ ≠ .fuelOut) ∧
    (∀ s : String, parseSource s ≠ .fuelOut) ∧
    (∀ (fuel prec : Nat) (left : Option ExpressionNode) (st : PState),
      infixParseFns (peekToken st).kind = none →
      parseExpressionLoop (fuel + 1) prec left st = .ok left st) ∧
    (∀ (fuel : Nat) (rule : InfixRule) (left : ExpressionNode) (st : PState)
      (v : Option ExpressionNode) (st' : PState), st.toks ≠ [] →
      runInfixRule fuel rule left st = .ok v st' →
      st'.toks.length < st.toks.length) := by
  refine ⟨?_, ?_, ?_, ?_, ?_⟩
  · intro cs h
    calc (nextToken cs).2.length < (skipWhitespace cs).length := nextTokenCore_lt _ h
      _ ≤ cs.length := skipWhitespace_length cs
  · intro toks errors
    exact (parseSuff (parseFuel toks)).1 ⟨toks, errors⟩ (by simp only [parseFuel]; omega)
  · intro s
    exact (parseSuff (parseFuel (tokenize s))).1 ⟨tokenize s, []⟩
      (by simp only [parseFuel]; omega)
  · intro fuel prec left st h
    have hprec := no_infix_rule_prec _ h
    simp only [parseExpressionLoop]
    rw [if_neg]
    rintro ⟨-, h2⟩
    rw [peekPrecedence, hprec] at h2
    omega
  · intro fuel rule left st v st' hne h
    exact runInfixRule_lt fuel hne h

/-- Witness for C6 at concrete inputs: a nonempty character consumes, a
concrete parse never exhausts its fuel, the loop returns immediately at
an `EOF` peek, and a concrete infix-rule invocation consumes two
tokens. -/
theorem c6_termination_witness :
    (nextToken ("+".data)).2.length < ("+".data).length ∧
    parseSource "1 + 2" ≠ .fuelOut ∧
    parseExpressionLoop 1 0 (some (.integer ⟨.Int, "1"⟩ 1))
        ⟨[⟨.Int, "1"⟩], []⟩ =
      .ok (some (.integer ⟨.Int, "1"⟩ 1)) ⟨[⟨.Int, "1"⟩], []⟩ ∧
    runInfixRule 30 .binaryRule (.integer ⟨.Int, "1"⟩ 1)
        ⟨[⟨.Int, "1"⟩, ⟨.Plus, "+"⟩, ⟨.Int, "2"⟩], []⟩ =
      .ok (some (.infixExpr ⟨.Plus, "+"⟩ (.integer ⟨.Int, "1"⟩ 1) "+"
        (.integer ⟨.Int, "2"⟩ 2))) ⟨[⟨.Int, "2"⟩], []⟩ ∧
    ([⟨.Int, "2"⟩] : List Token).length <
      ([⟨.Int, "1"⟩, ⟨.Plus, "+"⟩, ⟨.Int, "2"⟩] : List Token).length :=
  ⟨c6_termination.1 ("+".data) (by decide),
    c6_termination.2.2.1 "1 + 2",
    c6_termination.2.2.2.1 0 0 (some (.integer ⟨.Int, "1"⟩ 1))
      ⟨[⟨.Int, "1"⟩], []⟩ (by decide),
    rfl,
    c6_termination.2.2.2.2 30 .binaryRule (.integer ⟨.Int, "1"⟩ 1)
      ⟨[⟨.Int, "1"⟩, ⟨.Plus, "+"⟩, ⟨.Int, "2"⟩], []⟩
      (some (.infixExpr ⟨.Plus, "+"⟩ (.integer ⟨.Int, "1"⟩ 1) "+"
        (.integer ⟨.Int, "2"⟩ 2))) ⟨[⟨.Int, "2"⟩], []⟩ (by decide) rfl⟩

/-! ## Lexing canonical prints

The canonical print of an expression from the plain fragment tokenizes
to its `exprTokens`, independently of what (safe) text follows. -/

theorem nextToken_consume (cs : List Char) (h : (nextToken cs).1.kind ≠ .EOF) :
    (nextToken cs).2.length < cs.length :=
  Nat.lt_of_lt_of_le (nextTokenCore_lt _ h) (skipWhitespace_length cs)

theorem lexAllFuel_stable : ∀ f g : Nat, ∀ cs : List Char,
    cs.length < f → cs.length < g → lexAllFuel f cs = lexAllFuel g cs := by
  intro f
  induction f with
  | zero => intro g cs h1 h2; omega
  | succ f' ih =>
    intro g cs h1 h2
    cases g with
    | zero => omega
    | succ g' =>
      rw [lexAllFuel, lexAllFuel]
      rcases hnt : nextToken cs with ⟨t, rest⟩
      simp only
      split
      · rfl
      · rename_i hkind
        have hlt : rest.length < cs.length := by
          have := nextToken_consume cs (by rw [hnt]; simpa using hkind)
          rw [hnt] at this
          exact this
        exact congrArg (List.cons t) (ih g' rest (by omega) (by omega))

theorem isLetter_not_ws {c : Char} (h : isLetter c = true) :
    isAsciiWhitespace c = false := by
  simp only [isLetter, Bool.or_eq_true, Bool.and_eq_true, decide_eq_true_eq,
    beq_iff_eq] at h
  simp only [isAsciiWhitespace, Bool.or_eq_false_iff, beq_eq_false_iff_ne, ne_eq]
  omega

theorem isDigit_not_ws {c : Char} (h : isDigit c = true) :
    isAsciiWhitespace c = false := by
  simp only [isDigit, Bool.and_eq_true, decide_eq_true_eq] at h
  simp only [isAsciiWhitespace, Bool.or_eq_false_iff, beq_eq_false_iff_ne, ne_eq]
  omega

theorem isDigit_not_letter {c : Char} (h : isDigit c = true) :
    isLetter c = false := by
  by_contra hl
  simp only [Bool.not_eq_false] at hl
  simp only [isLetter, Bool.or_eq_true, Bool.and_eq_true, decide_eq_true_eq,
    beq_iff_eq] at hl
  simp only [isDigit, Bool.and_eq_true, decide_eq_true_eq] at h
  omega

theorem isLetter_scn {c : Char} (h : isLetter c = true) : singleCharKind c = none := by
  cases hsc : singleCharKind c with
  | none => rfl
  | some k =>
    obtain ⟨-, hl, -, -, -, -⟩ := singleCharKind_facts c k hsc
    rw [h] at hl
    exact absurd hl (by simp)

theorem isDigit_scn {c : Char} (h : isDigit c = true) : singleCharKind c = none := by
  cases hsc : singleCharKind c with
  | none => rfl
  | some k =>
    obtain ⟨-, -, hd, -, -, -⟩ := singleCharKind_facts c k hsc
    rw [h] at hd
    exact absurd hd (by simp)

theorem isLetter_ne_zero {c : Char} (h : isLetter c = true) : ¬ (c = '\x00') := by
  intro hc
  subst hc
  exact absurd h (by decide)

theorem isDigit_ne_zero {c : Char} (h : isDigit c = true) : ¬ (c = '\x00') := by
  intro hc
  subst hc
  exact absurd h (by decide)

theorem lookupKeywords_ne_eof (s : String) : lookupKeywords s ≠ .EOF := by
  unfold lookupKeywords
  split_ifs <;> decide

/-- Maximal munch over a concatenation: a block all of whose characters
satisfy `p`, followed by text that does not start with a `p`-character,
splits exactly at the block boundary. -/
theorem munch_append (p : Char → Bool) :
    ∀ l r : List Char, l.all p = true → (∀ c cs, r = c :: cs → p c = false) →
      (l ++ r).takeWhile p = l ∧ (l ++ r).dropWhile p = r := by
  intro l
  induction l with
  | nil =>
    intro r hall hr
    cases r with
    | nil => exact ⟨rfl, rfl⟩
    | cons c cs =>
      simp only [List.nil_append, List.takeWhile_cons, List.dropWhile_cons,
        hr c cs rfl]
      exact ⟨rfl, rfl⟩
  | cons c l' ih =>
    intro r hall hr
    simp only [List.all_cons, Bool.and_eq_true] at hall
    obtain ⟨ih1, ih2⟩ := ih r hall.2 hr
    simp only [List.cons_append, List.takeWhile_cons, List.dropWhile_cons, hall.1,
      ih1, ih2]
    exact ⟨rfl, rfl⟩

theorem string_data_ne {v : String} (h : v ≠ "") : ∃ c cs, v.data = c :: cs := by
  cases v with
  | mk data =>
    cases data with
    | nil => exact absurd rfl h
    | cons c cs => exact ⟨c, cs, rfl⟩

theorem nextToken_ident (v : String) (rest : List Char) (h1 : v ≠ "")
    (h2 : v.data.all isLetter = true) (h3 : safeFollow rest = true) :
    nextToken (v.data ++ rest) = (⟨lookupKeywords v, v⟩, rest) := by
  obtain ⟨c, cs, hv⟩ := string_data_ne h1
  have hc : isLetter c = true := by
    rw [hv] at h2
    simp only [List.all_cons, Bool.and_eq_true] at h2
    exact h2.1
  have hmunch := munch_append isLetter v.data rest h2 (by
    intro d ds hr
    rw [hr] at h3
    simp only [safeFollow, Bool.and_eq_true, Bool.not_eq_true'] at h3
    exact h3.1)
  have hread : readIdentifier (v.data ++ rest) = (v, rest) := by
    simp only [readIdentifier, hmunch.1, hmunch.2]
  rw [hv] at hread ⊢
  simp only [List.cons_append]
  rw [nextToken]
  rw [show skipWhitespace (c :: (cs ++ rest)) = c :: (cs ++ rest) from by
    simp [skipWhitespace, isLetter_not_ws hc]]
  simp only [nextTokenCore, isLetter_scn hc]
  rw [if_neg (isLetter_ne_zero hc), if_pos hc]
  simp only [← List.cons_append, hread]

theorem nextToken_number (v : String) (rest : List Char) (h1 : v ≠ "")
    (h2 : v.data.all isDigit = true) (h3 : safeFollow rest = true) :
    nextToken (v.data ++ rest) = (⟨.Int, v⟩, rest) := by
  obtain ⟨c, cs, hv⟩ := string_data_ne h1
  have hc : isDigit c = true := by
    rw [hv] at h2
    simp only [List.all_cons, Bool.and_eq_true] at h2
    exact h2.1
  have hmunch := munch_append isDigit v.data rest h2 (by
    intro d ds hr
    rw [hr] at h3
    simp only [safeFollow, Bool.and_eq_true, Bool.not_eq_true'] at h3
    exact h3.2)
  have hread : readNumber (v.data ++ rest) = (v, rest) := by
    simp only [readNumber, hmunch.1, hmunch.2]
  rw [hv] at hread ⊢
  simp only [List.cons_append]
  rw [nextToken]
  rw [show skipWhitespace (c :: (cs ++ rest)) = c :: (cs ++ rest) from by
    simp [skipWhitespace, isDigit_not_ws hc]]
  simp only [nextTokenCore, isDigit_scn hc]
  rw [if_neg (isDigit_ne_zero hc), if_neg (by simp [isDigit_not_letter hc]),
    if_pos hc]
  simp only [← List.cons_append, hread]

theorem lexAllC_single (c : Char) (k : TokenKind) (h : singleCharKind c = some k)
    (rest : List Char) :
    lexAllC (c :: rest) = ⟨k, String.singleton c⟩ :: lexAllC rest := by
  obtain ⟨-, -, -, hne, -, -⟩ := singleCharKind_facts c k h
  show lexAllFuel ((c :: rest).length + 1) (c :: rest) = _
  have hlen : (c :: rest).length + 1 = rest.length + 1 + 1 := by simp
  rw [hlen, lexAllFuel, nextToken_single c k rest h]
  simp only
  simp [hne, lexAllC]

theorem lexAllC_ws (c : Char) (h : isAsciiWhitespace c = true) (rest : List Char) :
    lexAllC (c :: rest) = lexAllC rest := by
  have hnt : nextToken (c :: rest) = nextToken rest := by
    simp [nextToken, skipWhitespace, h]
  show lexAllFuel ((c :: rest).length + 1) (c :: rest) = lexAllFuel (rest.length + 1) rest
  have hlen : (c :: rest).length + 1 = rest.length + 1 + 1 := by simp
  rw [hlen, lexAllFuel, hnt, lexAllFuel]
  rcases hnt2 : nextToken rest with ⟨t, r⟩
  simp only
  split
  · rfl
  · rename_i hkind
    have hlt : r.length < rest.length := by
      have := nextToken_consume rest (by rw [hnt2]; simpa using hkind)
      rw [hnt2] at this
      exact this
    exact congrArg (List.cons t) (lexAllFuel_stable _ _ _ (by omega) (by omega))

theorem lexAllC_ident (v : String) (rest : List Char) (h1 : v ≠ "")
    (h2 : v.data.all isLetter = true) (h3 : safeFollow rest = true) :
    lexAllC (v.data ++ rest) = ⟨lookupKeywords v, v⟩ :: lexAllC rest := by
  obtain ⟨c, cs, hv⟩ := string_data_ne h1
  have hlen : (v.data ++ rest).length + 1 = (v.data ++ rest).length + 1 := rfl
  show lexAllFuel ((v.data ++ rest).length + 1) (v.data ++ rest) = _
  rw [lexAllFuel, nextToken_ident v rest h1 h2 h3]
  simp only
  rw [if_neg (lookupKeywords_ne_eof v)]
  have hlt : rest.length < (v.data ++ rest).length := by
    rw [List.length_append, hv]
    simp
  exact congrArg (List.cons _) (lexAllFuel_stable _ _ _ (by omega) (by simp [lexAllC]))

theorem singleton_lparen : String.singleton '(' = "(" := rfl

theorem singleton_rparen : String.singleton ')' = ")" := rfl

theorem singleton_bang : String.singleton '!' = "!" := rfl

theorem singleton_minus : String.singleton '-' = "-" := rfl

theorem singleton_plus : String.singleton '+' = "+" := rfl

theorem singleton_star : String.singleton '*' = "*" := rfl

theorem singleton_slash : String.singleton '/' = "/" := rfl

theorem singleton_lt : String.singleton '<' = "<" := rfl

theorem singleton_gt : String.singleton '>' = ">" := rfl

theorem lexAllC_number (v : String) (rest : List Char) (h1 : v ≠ "")
    (h2 : v.data.all isDigit = true) (h3 : safeFollow rest = true) :
    lexAllC (v.data ++ rest) = ⟨.Int, v⟩ :: lexAllC rest := by
  obtain ⟨c, cs, hv⟩ := string_data_ne h1
  show lexAllFuel ((v.data ++ rest).length + 1) (v.data ++ rest) = _
  rw [lexAllFuel, nextToken_number v rest h1 h2 h3]
  simp only
  rw [if_neg (by decide : ¬ (TokenKind.Int = .EOF))]
  have hlt : rest.length < (v.data ++ rest).length := by
    rw [List.length_append, hv]
    simp
  exact congrArg (List.cons _) (lexAllFuel_stable _ _ _ (by omega) (by simp [lexAllC]))

/-- Lexing the print of a prefix expression, given the block lemma for the
printed operand. -/
theorem lexAllC_prefix_chunk (c : Char) (k : TokenKind) (rdata rest : List Char)
    (rtoks : List Token) (hk : singleCharKind c = some k)
    (hr : lexAllC (rdata ++ (')' :: rest)) = rtoks ++ lexAllC (')' :: rest)) :
    lexAllC ('(' :: c :: (rdata ++ (')' :: rest))) =
      ⟨.LParen, "("⟩ :: ⟨k, String.singleton c⟩ ::
        (rtoks ++ ⟨.RParen, ")"⟩ :: lexAllC rest) := by
  rw [lexAllC_single '(' .LParen (by decide), lexAllC_single c k hk, hr,
    lexAllC_single ')' .RParen (by decide)]
  simp [singleton_lparen, singleton_rparen]

/-- Lexing the print of an infix expression, given the block lemmas for the
two printed operands. -/
theorem lexAllC_infix_chunk (c : Char) (k : TokenKind)
    (ldata rdata rest : List Char) (ltoks rtoks : List Token)
    (hk : singleCharKind c = some k)
    (hl : lexAllC (ldata ++ (' ' :: c :: ' ' :: (rdata ++ (')' :: rest)))) =
          ltoks ++ lexAllC (' ' :: c :: ' ' :: (rdata ++ (')' :: rest))))
    (hr : lexAllC (rdata ++ (')' :: rest)) = rtoks ++ lexAllC (')' :: rest)) :
    lexAllC ('(' :: (ldata ++ (' ' :: c :: ' ' :: (rdata ++ (')' :: rest))))) =
      ⟨.LParen, "("⟩ ::
        (ltoks ++ ⟨k, String.singleton c⟩ ::
          (rtoks ++ ⟨.RParen, ")"⟩ :: lexAllC rest)) := by
  rw [lexAllC_single '(' .LParen (by decide), hl,
    lexAllC_ws ' ' (by decide), lexAllC_single c k hk,
    lexAllC_ws ' ' (by decide), hr,
    lexAllC_single ')' .RParen (by decide)]
  simp [singleton_lparen, singleton_rparen]

/-- Tokenizing the canonical print of a plain expression yields exactly its
`exprTokens`, in front of the tokens of any safe continuation. -/
theorem lexAllC_print : ∀ (n : Nat) (e : ExpressionNode), sizeOf e ≤ n →
    plainExpr e = true → ∀ rest : List Char, safeFollow rest = true →
    lexAllC ((ExpressionNode.printString e).data ++ rest) =
      exprTokens e ++ lexAllC rest := by
  intro n
  induction n with
  | zero =>
    intro e hsize hplain rest hrest
    exfalso
    cases e <;> simp at hsize
  | succ n ih =>
    intro e hsize hplain rest hrest
    cases e with
    | noneE => exact absurd hplain (by simp [plainExpr])
    | ifExpr t c cs a => exact absurd hplain (by simp [plainExpr])
    | function t p b => exact absurd hplain (by simp [plainExpr])
    | call t f a => exact absurd hplain (by simp [plainExpr])
    | identifier tok value =>
      simp only [plainExpr, Bool.and_eq_true, Bool.not_eq_true',
        beq_eq_false_iff_ne, ne_eq, beq_iff_eq] at hplain
      obtain ⟨⟨hne, hall⟩, hkw⟩ := hplain
      simp only [ExpressionNode.printString, exprTokens]
      rw [lexAllC_ident value rest hne hall hrest, hkw]
      rfl
    | integer tok w =>
      simp only [plainExpr, Bool.and_eq_true, Bool.not_eq_true',
        beq_eq_false_iff_ne, ne_eq] at hplain
      obtain ⟨⟨hne, hall⟩, -⟩ := hplain
      simp only [ExpressionNode.printString, exprTokens]
      rw [lexAllC_number tok.literal rest hne hall hrest]
      rfl
    | boolean tok b =>
      simp only [plainExpr, Bool.or_eq_true, beq_iff_eq] at hplain
      simp only [ExpressionNode.printString, exprTokens]
      rcases hplain with h | h <;> rw [h]
      · rw [lexAllC_ident "true" rest (by decide) (by decide) hrest,
          show lookupKeywords "true" = TokenKind.True from by decide]
        simp
      · rw [lexAllC_ident "false" rest (by decide) (by decide) hrest,
          show lookupKeywords "false" = TokenKind.False from by decide]
        simp
    | prefixExpr tok op right =>
      simp only [plainExpr, Bool.and_eq_true, Bool.or_eq_true, beq_iff_eq] at hplain
      obtain ⟨hop, hpr⟩ := hplain
      have hsz : sizeOf right ≤ n := by
        simp at hsize
        omega
      have hrec := ih right hsz hpr (')' :: rest) rfl
      rcases hop with h | h <;> subst h
      · have hdata : (ExpressionNode.printString
            (ExpressionNode.prefixExpr tok "!" right)).data ++ rest =
            '(' :: '!' :: ((ExpressionNode.printString right).data ++ (')' :: rest)) := by
          simp [ExpressionNode.printString, String.data_append]
        rw [hdata, lexAllC_prefix_chunk '!' .Bang _ rest _ (by decide) hrec]
        simp [exprTokens, unaryOpToken, singleton_bang]
      · have hdata : (ExpressionNode.printString
            (ExpressionNode.prefixExpr tok "-" right)).data ++ rest =
            '(' :: '-' :: ((ExpressionNode.printString right).data ++ (')' :: rest)) := by
          simp [ExpressionNode.printString, String.data_append]
        rw [hdata, lexAllC_prefix_chunk '-' .Minus _ rest _ (by decide) hrec]
        simp [exprTokens, unaryOpToken, singleton_minus]
    | infixExpr tok l op r =>
      simp only [plainExpr, Bool.and_eq_true, Bool.or_eq_true, beq_iff_eq] at hplain
      obtain ⟨⟨hop, hpl⟩, hpr⟩ := hplain
      have hszl : sizeOf l ≤ n := by
        simp at hsize
        omega
      have hszr : sizeOf r ≤ n := by
        simp at hsize
        omega
      have hrecr := ih r hszr hpr (')' :: rest) rfl
      rcases hop with ((((h | h) | h) | h) | h) | h <;> subst h
      · have hdata : (ExpressionNode.printString
            (ExpressionNode.infixExpr tok l "+" r)).data ++ rest =
            '(' :: ((ExpressionNode.printString l).data ++
              (' ' :: '+' :: ' ' ::
                ((ExpressionNode.printString r).data ++ (')' :: rest)))) := by
          simp [ExpressionNode.printString, String.data_append]
        have hrecl := ih l hszl hpl
          (' ' :: '+' :: ' ' ::
            ((ExpressionNode.printString r).data ++ (')' :: rest))) rfl
        rw [hdata, lexAllC_infix_chunk '+' .Plus _ _ rest _ _ (by decide) hrecl hrecr]
        simp [exprTokens, binaryOpToken, singleton_plus]
      · have hdata : (ExpressionNode.printString
            (ExpressionNode.infixExpr tok l "-" r)).data ++ rest =
            '(' :: ((ExpressionNode.printString l).data ++
              (' ' :: '-' :: ' ' ::
                ((ExpressionNode.printString r).data ++ (')' :: rest)))) := by
          simp [ExpressionNode.printString, String.data_append]
        have hrecl := ih l hszl hpl
          (' ' :: '-' :: ' ' ::
            ((ExpressionNode.printString r).data ++ (')' :: rest))) rfl
        rw [hdata, lexAllC_infix_chunk '-' .Minus _ _ rest _ _ (by decide) hrecl hrecr]
        simp [exprTokens, binaryOpToken, singleton_minus]
      · have hdata : (ExpressionNode.printString
            (ExpressionNode.infixExpr tok l "*" r)).data ++ rest =
            '(' :: ((ExpressionNode.printString l).data ++
              (' ' :: '*' :: ' ' ::
                ((ExpressionNode.printString r).data ++ (')' :: rest)))) := by
          simp [ExpressionNode.printString, String.data_append]
        have hrecl := ih l hszl hpl
          (' ' :: '*' :: ' ' ::
            ((ExpressionNode.printString r).data ++ (')' :: rest))) rfl
        rw [hdata,
          lexAllC_infix_chunk '*' .Asterisk _ _ rest _ _ (by decide) hrecl hrecr]
        simp [exprTokens, binaryOpToken, singleton_star]
      · have hdata : (ExpressionNode.printString
            (ExpressionNode.infixExpr tok l "/" r)).data ++ rest =
            '(' :: ((ExpressionNode.printString l).data ++
              (' ' :: '/' :: ' ' ::
                ((ExpressionNode.printString r).data ++ (')' :: rest)))) := by
          simp [ExpressionNode.printString, String.data_append]
        have hrecl := ih l hszl hpl
          (' ' :: '/' :: ' ' ::
            ((ExpressionNode.printString r).data ++ (')' :: rest))) rfl
        rw [hdata, lexAllC_infix_chunk '/' .Slash _ _ rest _ _ (by decide) hrecl hrecr]
        simp [exprTokens, binaryOpToken, singleton_slash]
      · have hdata : (ExpressionNode.printString
            (ExpressionNode.infixExpr tok l "<" r)).data ++ rest =
            '(' :: ((ExpressionNode.printString l).data ++
              (' ' :: '<' :: ' ' ::
                ((ExpressionNode.printString r).data ++ (')' :: rest)))) := by
          simp [ExpressionNode.printString, String.data_append]
        have hrecl := ih l hszl hpl
          (' ' :: '<' :: ' ' ::
            ((ExpressionNode.printString r).data ++ (')' :: rest))) rfl
        rw [hdata, lexAllC_infix_chunk '<' .LT _ _ rest _ _ (by decide) hrecl hrecr]
        simp [exprTokens, binaryOpToken, singleton_lt]
      · have hdata : (ExpressionNode.printString
            (ExpressionNode.infixExpr tok l ">" r)).data ++ rest =
            '(' :: ((ExpressionNode.printString l).data ++
              (' ' :: '>' :: ' ' ::
                ((ExpressionNode.printString r).data ++ (')' :: rest)))) := by
          simp [ExpressionNode.printString, String.data_append]
        have hrecl := ih l hszl hpl
          (' ' :: '>' :: ' ' ::
            ((ExpressionNode.printString r).data ++ (')' :: rest))) rfl
        rw [hdata, lexAllC_infix_chunk '>' .GT _ _ rest _ _ (by decide) hrecl hrecr]
        simp [exprTokens, binaryOpToken, singleton_gt]

/-- The precedence-climbing loop exits immediately when the peek token's
precedence is `Lowest` (the loop condition `prec < peek_precedence` fails
for every bound). -/
theorem loop_exit (f prec : Nat) (hf : 1 ≤ f) (left : Option ExpressionNode)
    (st : PState) (hstop : precedenceMap (peekToken st).kind = 0) :
    parseExpressionLoop f prec left st = .ok left st := by
  cases f with
  | zero => omega
  | succ f' =>
    simp only [parseExpressionLoop]
    rw [if_neg]
    rintro ⟨-, hlt⟩
    have hz : peekPrecedence st = 0 := by simp [peekPrecedence, hstop]
    omega

/-- `parse_expression` reduces to its prefix rule when the following token
has precedence `Lowest`. -/
theorem parseExpression_exact_aux (f prec : Nat) (st : PState) (rule : PrefixRule)
    (e₂ : ExpressionNode) (st₂ : PState)
    (hrule : prefixParseFns (curToken st).kind = some rule)
    (hrun : runPrefixRule f rule st = .ok (some e₂) st₂)
    (hstop : precedenceMap (peekToken st₂).kind = 0)
    (hf : 1 ≤ f) :
    parseExpression (f + 1) prec st = .ok (some e₂) st₂ := by
  simp only [parseExpression, hrule, hrun]
  exact loop_exit f prec hf (some e₂) st₂ hstop

/-- One firing of the precedence-climbing loop through a binary infix
rule, with the loop condition satisfied. -/
theorem loop_fire (f prec : Nat) (left : ExpressionNode) (st : PState)
    (hcond : ¬ (peekTokenIs .Semicolon st = true) ∧ prec < peekPrecedence st)
    (hrule : infixParseFns (peekToken st).kind = some .binaryRule) :
    parseExpressionLoop (f + 1) prec (some left) st =
      match runInfixRule f .binaryRule left st with
      | .ok newLeft st1 => parseExpressionLoop f prec newLeft st1
      | .panicked m => .panicked m
      | .fuelOut => .fuelOut := by
  simp only [parseExpressionLoop]
  rw [if_pos hcond, hrule]

/-- The head token of the canonical print of a plain expression selects
exactly the prefix rule `ruleOf`. -/
theorem ruleOf_dispatch (e : ExpressionNode) (h : plainExpr e = true)
    (ts : List Token) (errs : List String) :
    prefixParseFns (curToken ⟨exprTokens e ++ ts, errs⟩).kind = some (ruleOf e) := by
  cases e with
  | noneE => exact absurd h (by simp [plainExpr])
  | ifExpr t c cs a => exact absurd h (by simp [plainExpr])
  | function t p b => exact absurd h (by simp [plainExpr])
  | call t f a => exact absurd h (by simp [plainExpr])
  | identifier tok v => rfl
  | integer tok w => rfl
  | boolean tok b =>
    simp only [exprTokens, curToken, ruleOf, List.cons_append, List.headD]
    cases tok.literal == "true" <;> rfl
  | prefixExpr tok op right => rfl
  | infixExpr tok l op r => rfl

/-- Running the associated prefix rule on the token stream of a plain
expression's canonical print parses it back exactly: it returns `some`
expression printing identically, consumes the print's tokens up to its
last one, and reports no error. -/
theorem parseExact : ∀ (n : Nat) (e : ExpressionNode), sizeOf e ≤ n →
    plainExpr e = true →
    ∀ (fuel : Nat) (rest : List Token) (errs : List String), exprFuel e ≤ fuel →
    ∃ e₂, runPrefixRule fuel (ruleOf e) ⟨exprTokens e ++ rest, errs⟩ =
        .ok (some e₂) ⟨lastTok e :: rest, errs⟩ ∧
      ExpressionNode.printString e₂ = ExpressionNode.printString e := by
  intro n
  induction n with
  | zero =>
    intro e hsize hplain
    exfalso
    cases e <;> simp at hsize
  | succ n ih =>
    intro e hsize hplain fuel rest errs hfuel
    cases e with
    | noneE => exact absurd hplain (by simp [plainExpr])
    | ifExpr t c cs a => exact absurd hplain (by simp [plainExpr])
    | function t p b => exact absurd hplain (by simp [plainExpr])
    | call t f a => exact absurd hplain (by simp [plainExpr])
    | identifier tok v =>
      obtain ⟨f₀, rfl⟩ : ∃ f₀, fuel = f₀ + 1 :=
        ⟨fuel - 1, by simp [exprFuel] at hfuel; omega⟩
      exact ⟨.identifier ⟨.Ident, v⟩ v, rfl, rfl⟩
    | integer tok w =>
      simp only [plainExpr, Bool.and_eq_true, Bool.not_eq_true',
        beq_eq_false_iff_ne, ne_eq, Option.isSome_iff_exists] at hplain
      obtain ⟨⟨-, -⟩, value, hv⟩ := hplain
      obtain ⟨f₀, rfl⟩ : ∃ f₀, fuel = f₀ + 1 :=
        ⟨fuel - 1, by simp [exprFuel] at hfuel; omega⟩
      refine ⟨.integer ⟨.Int, tok.literal⟩ value, ?_, rfl⟩
      simp only [ruleOf, exprTokens, lastTok, runPrefixRule, parseIntegerLiteral,
        curToken, List.cons_append, List.nil_append, List.headD, hv]
    | boolean tok b =>
      simp only [plainExpr, Bool.or_eq_true, beq_iff_eq] at hplain
      obtain ⟨f₀, rfl⟩ : ∃ f₀, fuel = f₀ + 1 :=
        ⟨fuel - 1, by simp [exprFuel] at hfuel; omega⟩
      simp only [ruleOf, exprTokens, lastTok, ExpressionNode.printString]
      rcases hplain with h | h <;> rw [h]
      · exact ⟨.boolean ⟨.True, "true"⟩ true, rfl, rfl⟩
      · exact ⟨.boolean ⟨.False, "false"⟩ false, rfl, rfl⟩
    | prefixExpr tok op right =>
      simp only [plainExpr, Bool.and_eq_true, Bool.or_eq_true, beq_iff_eq] at hplain
      obtain ⟨hop, hpr⟩ := hplain
      have hsz : sizeOf right ≤ n := by
        simp at hsize
        omega
      have hfacts : (unaryOpToken op).literal = op ∧
          prefixParseFns (unaryOpToken op).kind = some .unaryRule := by
        rcases hop with h | h <;> subst h <;> exact ⟨rfl, rfl⟩
      obtain ⟨hlit, hdisp⟩ := hfacts
      have hF : exprFuel right + 8 ≤ fuel := by
        simpa [exprFuel] using hfuel
      obtain ⟨f₀, rfl⟩ : ∃ f₀, fuel = f₀ + 1 := ⟨fuel - 1, by omega⟩
      obtain ⟨f₁, rfl⟩ : ∃ f₁, f₀ = f₁ + 1 := ⟨f₀ - 1, by omega⟩
      obtain ⟨f₂, rfl⟩ : ∃ f₂, f₁ = f₂ + 1 := ⟨f₁ - 1, by omega⟩
      obtain ⟨f₃, rfl⟩ : ∃ f₃, f₂ = f₃ + 1 := ⟨f₂ - 1, by omega⟩
      obtain ⟨f₄, rfl⟩ : ∃ f₄, f₃ = f₄ + 1 := ⟨f₃ - 1, by omega⟩
      obtain ⟨f₅, rfl⟩ : ∃ f₅, f₄ = f₅ + 1 := ⟨f₄ - 1, by omega⟩
      obtain ⟨r₂, hrun_r, hpr₂⟩ :=
        ih right hsz hpr f₅ (⟨.RParen, ")"⟩ :: rest) errs (by omega)
      have hinner : parseExpression (f₅ + 1) 5
          ⟨exprTokens right ++ (⟨.RParen, ")"⟩ :: rest), errs⟩ =
          .ok (some r₂) ⟨lastTok right :: (⟨.RParen, ")"⟩ :: rest), errs⟩ :=
        parseExpression_exact_aux f₅ 5 _ (ruleOf right) r₂ _
          (ruleOf_dispatch right hpr _ _) hrun_r rfl (by omega)
      refine ⟨.prefixExpr (unaryOpToken op) ((unaryOpToken op).literal) r₂, ?_, ?_⟩
      · simp only [ruleOf, exprTokens, lastTok, List.cons_append, List.append_assoc,
          List.singleton_append, List.nil_append]
        simp only [runPrefixRule]
        simp only [parseGroupedExpression, nextTokenP, List.tail_cons]
        simp only [parseExpression, curToken, List.headD, hdisp]
        simp only [runPrefixRule]
        simp only [parsePrefixExpression, nextTokenP, List.tail_cons, curToken,
          List.headD]
        rw [hinner]
        dsimp only
        have hloop := loop_exit (f₅ + 1 + 1 + 1) 0 (by omega)
          (some (.prefixExpr (unaryOpToken op) ((unaryOpToken op).literal) r₂))
          ⟨lastTok right :: (⟨.RParen, ")"⟩ :: rest), errs⟩ rfl
        rw [hloop]
        simp only [expectPeek, peekTokenIs, peekToken, List.tail_cons, List.headD,
          beq_self_eq_true, if_true, nextTokenP]
      · simp only [ExpressionNode.printString, hlit, hpr₂]
    | infixExpr tok l op r =>
      simp only [plainExpr, Bool.and_eq_true, Bool.or_eq_true, beq_iff_eq] at hplain
      obtain ⟨⟨hop, hpl⟩, hpr⟩ := hplain
      have hszl : sizeOf l ≤ n := by
        simp at hsize
        omega
      have hszr : sizeOf r ≤ n := by
        simp at hsize
        omega
      have hfacts : (binaryOpToken op).literal = op ∧
          infixParseFns (binaryOpToken op).kind = some .binaryRule ∧
          1 ≤ precedenceMap (binaryOpToken op).kind ∧
          ((binaryOpToken op).kind == TokenKind.Semicolon) = false := by
        rcases hop with ((((h | h) | h) | h) | h) | h <;> subst h <;>
          exact ⟨rfl, rfl, by decide, rfl⟩
      obtain ⟨hlit, hinf, hprec1, hsem⟩ := hfacts
      have hF : max (exprFuel l) (exprFuel r) + 8 ≤ fuel := by
        simpa [exprFuel] using hfuel
      obtain ⟨f₀, rfl⟩ : ∃ f₀, fuel = f₀ + 1 := ⟨fuel - 1, by omega⟩
      obtain ⟨f₁, rfl⟩ : ∃ f₁, f₀ = f₁ + 1 := ⟨f₀ - 1, by omega⟩
      obtain ⟨f₂, rfl⟩ : ∃ f₂, f₁ = f₂ + 1 := ⟨f₁ - 1, by omega⟩
      obtain ⟨f₃, rfl⟩ : ∃ f₃, f₂ = f₃ + 1 := ⟨f₂ - 1, by omega⟩
      obtain ⟨f₄, rfl⟩ : ∃ f₄, f₃ = f₄ + 1 := ⟨f₃ - 1, by omega⟩
      obtain ⟨f₅, rfl⟩ : ∃ f₅, f₄ = f₅ + 1 := ⟨f₄ - 1, by omega⟩
      obtain ⟨f₆, rfl⟩ : ∃ f₆, f₅ = f₆ + 1 := ⟨f₅ - 1, by omega⟩
      have hmaxl : exprFuel l ≤ max (exprFuel l) (exprFuel r) := Nat.le_max_left _ _
      have hmaxr : exprFuel r ≤ max (exprFuel l) (exprFuel r) := Nat.le_max_right _ _
      obtain ⟨l₂, hrun_l, hpl₂⟩ := ih l hszl hpl (f₆ + 1 + 1 + 1 + 1)
        (binaryOpToken op :: (exprTokens r ++ (⟨.RParen, ")"⟩ :: rest))) errs (by omega)
      obtain ⟨r₂, hrun_r, hpr₂⟩ :=
        ih r hszr hpr f₆ (⟨.RParen, ")"⟩ :: rest) errs (by omega)
      have hinner_r : parseExpression (f₆ + 1) (precedenceMap (binaryOpToken op).kind)
          ⟨exprTokens r ++ (⟨.RParen, ")"⟩ :: rest), errs⟩ =
          .ok (some r₂) ⟨lastTok r :: (⟨.RParen, ")"⟩ :: rest), errs⟩ :=
        parseExpression_exact_aux f₆ _ _ (ruleOf r) r₂ _
          (ruleOf_dispatch r hpr _ _) hrun_r rfl (by omega)
      have hmiddle : parseExpression (f₆ + 1 + 1 + 1 + 1 + 1) 0
          ⟨exprTokens l ++
            (binaryOpToken op :: (exprTokens r ++ (⟨.RParen, ")"⟩ :: rest))), errs⟩ =
          .ok (some (.infixExpr (binaryOpToken op) l₂ ((binaryOpToken op).literal) r₂))
            ⟨lastTok r :: (⟨.RParen, ")"⟩ :: rest), errs⟩ := by
        simp only [parseExpression, ruleOf_dispatch l hpl, hrun_l]
        rw [loop_fire (f₆ + 1 + 1 + 1) 0 l₂
          ⟨lastTok l :: (binaryOpToken op ::
            (exprTokens r ++ (⟨.RParen, ")"⟩ :: rest))), errs⟩
          ⟨by simp [peekTokenIs, peekToken, hsem],
           by simp only [peekPrecedence, peekToken, List.tail_cons, List.headD]; omega⟩
          (by simp only [peekToken, List.tail_cons, List.headD]; exact hinf)]
        simp only [runInfixRule]
        simp only [parseInfixExpression, nextTokenP, List.tail_cons, curToken,
          curPrecedence, List.headD]
        rw [hinner_r]
        dsimp only
        have hloop := loop_exit (f₆ + 1 + 1 + 1) 0 (by omega)
          (some (.infixExpr (binaryOpToken op) l₂ ((binaryOpToken op).literal) r₂))
          ⟨lastTok r :: (⟨.RParen, ")"⟩ :: rest), errs⟩ rfl
        rw [hloop]
      refine ⟨.infixExpr (binaryOpToken op) l₂ ((binaryOpToken op).literal) r₂, ?_, ?_⟩
      · simp only [ruleOf, exprTokens, lastTok, List.cons_append, List.append_assoc,
          List.singleton_append, List.nil_append]
        simp only [runPrefixRule]
        simp only [parseGroupedExpression, nextTokenP, List.tail_cons]
        rw [hmiddle]
        simp only [expectPeek, peekTokenIs, peekToken, List.tail_cons, List.headD,
          beq_self_eq_true, if_true, nextTokenP]
      · simp only [ExpressionNode.printString, hlit, hpl₂, hpr₂]

/-- The parse fuel is generous: eight times the token count bounds the
expression fuel, and a plain expression prints at least one token. -/
theorem exprFuel_le : ∀ (n : Nat) (e : ExpressionNode), sizeOf e ≤ n →
    plainExpr e = true →
    exprFuel e ≤ 8 * (exprTokens e).length ∧ 1 ≤ (exprTokens e).length := by
  intro n
  induction n with
  | zero =>
    intro e hsize hplain
    exfalso
    cases e <;> simp at hsize
  | succ n ih =>
    intro e hsize hplain
    cases e with
    | noneE => exact absurd hplain (by simp [plainExpr])
    | ifExpr t c cs a => exact absurd hplain (by simp [plainExpr])
    | function t p b => exact absurd hplain (by simp [plainExpr])
    | call t f a => exact absurd hplain (by simp [plainExpr])
    | identifier tok v => simp [exprFuel, exprTokens]
    | integer tok w => simp [exprFuel, exprTokens]
    | boolean tok b => simp [exprFuel, exprTokens]
    | prefixExpr tok op right =>
      simp only [plainExpr, Bool.and_eq_true] at hplain
      have h1 := ih right (by simp at hsize; omega) hplain.2
      simp only [exprFuel, exprTokens, List.length_cons, List.length_append]
      omega
    | infixExpr tok l op r =>
      simp only [plainExpr, Bool.and_eq_true] at hplain
      obtain ⟨⟨-, hpl⟩, hpr⟩ := hplain
      have h1 := ih l (by simp at hsize; omega) hpl
      have h2 := ih r (by simp at hsize; omega) hpr
      simp only [exprFuel, exprTokens, List.length_cons, List.length_append]
      omega

/-- The first printed token of a plain expression is not `EOF`. -/
theorem exprTokens_head_not_eof (e : ExpressionNode) (h : plainExpr e = true)
    (errs : List String) :
    curTokenIs .EOF ⟨exprTokens e, errs⟩ = false := by
  cases e with
  | noneE => exact absurd h (by simp [plainExpr])
  | ifExpr t c cs a => exact absurd h (by simp [plainExpr])
  | function t p b => exact absurd h (by simp [plainExpr])
  | call t f a => exact absurd h (by simp [plainExpr])
  | identifier tok v => rfl
  | integer tok w => rfl
  | boolean tok b =>
    cases hb : tok.literal == "true" <;>
      simp [curTokenIs, curToken, exprTokens, hb]
  | prefixExpr tok op right => rfl
  | infixExpr tok l op r => rfl

/-- The first printed token of a plain expression is neither `Let` nor
`Return`, so `parse_statement` dispatches to the expression-statement
branch. -/
theorem parseStatement_dispatch (e : ExpressionNode) (h : plainExpr e = true)
    (f : Nat) (errs : List String) :
    parseStatement (f + 1) ⟨exprTokens e, errs⟩ =
      parseExpressionStatement f ⟨exprTokens e, errs⟩ := by
  cases e with
  | noneE => exact absurd h (by simp [plainExpr])
  | ifExpr t c cs a => exact absurd h (by simp [plainExpr])
  | function t p b => exact absurd h (by simp [plainExpr])
  | call t f a => exact absurd h (by simp [plainExpr])
  | identifier tok v => rfl
  | integer tok w => rfl
  | boolean tok b =>
    cases hb : tok.literal == "true" <;>
      simp only [parseStatement, exprTokens, hb, curToken, List.cons_append,
        List.headD] <;> rfl
  | prefixExpr tok op right => rfl
  | infixExpr tok l op r => rfl

/-- The program loop stops on an exhausted token stream. -/
theorem progLoop_done (f : Nat) (acc : List StatementNode) (errs : List String) :
    parseProgramLoop (f + 1) acc ⟨[], errs⟩ = .ok ⟨acc⟩ ⟨[], errs⟩ := rfl

/-- One iteration of the program loop through a produced statement. -/
theorem progLoop_step (f : Nat) (acc : List StatementNode) (st st1 : PState)
    (stmt : StatementNode) (heof : curTokenIs .EOF st = false)
    (hstmt : parseStatement f st = .ok (some stmt) st1) :
    parseProgramLoop (f + 1) acc st =
      parseProgramLoop f (acc ++ [stmt]) (nextTokenP st1) := by
  simp only [parseProgramLoop, heof, hstmt]
  rw [if_neg (by simp)]

/-- C3, counterexample: the two-statement program `3 + 4; -5 * 5` parses
with an empty error list and prints as `(3 + 4)((-5) * 5)`, but re-parsing
that print (also error-free) yields a program printing
`(3 + 4)(((-5) * 5))` — the print's adjacency turns the second statement
into call arguments, so the round trip is not character-identical. -/
theorem c3_counterexample_reprint :
    parseSourceResult "3 + 4; -5 * 5" = some ([], "(3 + 4)((-5) * 5)") ∧
    parseSourceResult "(3 + 4)((-5) * 5)" = some ([], "(3 + 4)(((-5) * 5))") ∧
    "(3 + 4)((-5) * 5)" ≠ "(3 + 4)(((-5) * 5))" :=
  ⟨rfl, rfl, by decide⟩

/-- C3 (amended): round-trip print stability holds on the plain
expression fragment — for every program consisting of a single expression
statement over identifier/integer/boolean/prefix/infix nodes with
lexically canonical fields, parsing the canonical print succeeds with an
empty error list and re-prints character-for-character identically. -/
theorem c3_round_trip_plain (e : ExpressionNode) (tok : Token)
    (h : plainExpr e = true) :
    parseSourceResult (Program.printString ⟨[.expressionStmt tok (some e)]⟩) =
      some ([], Program.printString ⟨[.expressionStmt tok (some e)]⟩) := by
  have hl := lexAllC_print (sizeOf e) e le_rfl h [] rfl
  have htok : tokenize (Program.printString ⟨[.expressionStmt tok (some e)]⟩) =
      exprTokens e := by
    simp only [Program.printString, printStmtList, StatementNode.printString]
    simp only [tokenize, String.data_append]
    have hnil : lexAllC [] = [] := rfl
    simpa [hnil] using hl
  have hFle := exprFuel_le (sizeOf e) e le_rfl h
  obtain ⟨g₅, hg⟩ : ∃ g, parseFuel (exprTokens e) = g + 1 + 1 + 1 + 1 + 1 :=
    ⟨parseFuel (exprTokens e) - 5, by simp only [parseFuel]; omega⟩
  obtain ⟨e₂, hrun, hprint⟩ := parseExact (sizeOf e) e le_rfl h g₅ [] []
    (by simp only [parseFuel] at hg; omega)
  rw [List.append_nil] at hrun
  have hexpr : parseExpression (g₅ + 1) 0 ⟨exprTokens e, []⟩ =
      .ok (some e₂) ⟨[lastTok e], []⟩ :=
    parseExpression_exact_aux g₅ 0 _ (ruleOf e) e₂ _
      (by have := ruleOf_dispatch e h [] []; rwa [List.append_nil] at this)
      hrun rfl (by simp only [parseFuel] at hg; omega)
  have hstmt : parseExpressionStatement (g₅ + 1 + 1) ⟨exprTokens e, []⟩ =
      .ok (some (.expressionStmt (curToken ⟨exprTokens e, []⟩) (some e₂)))
        ⟨[lastTok e], []⟩ := by
    simp only [parseExpressionStatement]
    rw [hexpr]
    dsimp only
    rw [if_neg (by simp [peekTokenIs, peekToken, eofToken])]
  have hloopP : parseProgramLoop (g₅ + 1 + 1 + 1 + 1) [] ⟨exprTokens e, []⟩ =
      .ok ⟨[.expressionStmt (curToken ⟨exprTokens e, []⟩) (some e₂)]⟩ ⟨[], []⟩ := by
    rw [progLoop_step (g₅ + 1 + 1 + 1) [] _ _ _ (exprTokens_head_not_eof e h [])
      (by rw [parseStatement_dispatch e h (g₅ + 1 + 1) [], hstmt])]
    simp only [nextTokenP, List.tail_cons, List.nil_append]
    exact progLoop_done (g₅ + 1 + 1) _ []
  have hsrc : parseSource (Program.printString ⟨[.expressionStmt tok (some e)]⟩) =
      .ok ⟨[.expressionStmt (curToken ⟨exprTokens e, []⟩) (some e₂)]⟩ ⟨[], []⟩ := by
    simp only [parseSource, htok]
    rw [hg]
    simp only [parseProgram]
    exact hloopP
  simp only [parseSourceResult, hsrc]
  simp only [Program.printString, printStmtList, StatementNode.printString, hprint]

/-- Witness for C3 (amended), at the plain expression `(3 + (-5))`. -/
theorem c3_round_trip_plain_witness :
    plainExpr (.infixExpr ⟨.Plus, "+"⟩ (.integer ⟨.Int, "3"⟩ 3) "+"
      (.prefixExpr ⟨.Minus, "-"⟩ "-" (.integer ⟨.Int, "5"⟩ 5))) = true ∧
    parseSourceResult (Program.printString ⟨[.expressionStmt ⟨.Int, "3"⟩
      (some (.infixExpr ⟨.Plus, "+"⟩ (.integer ⟨.Int, "3"⟩ 3) "+"
        (.prefixExpr ⟨.Minus, "-"⟩ "-" (.integer ⟨.Int, "5"⟩ 5))))]⟩) =
      some ([], Program.printString ⟨[.expressionStmt ⟨.Int, "3"⟩
        (some (.infixExpr ⟨.Plus, "+"⟩ (.integer ⟨.Int, "3"⟩ 3) "+"
          (.prefixExpr ⟨.Minus, "-"⟩ "-" (.integer ⟨.Int, "5"⟩ 5))))]⟩) :=
  ⟨by decide, c3_round_trip_plain _ _ (by decide)⟩

end Monkey
